import Mathlib

/-!
Verification of the DataSplice evidence-shaping core.

This file gives a shallow embedding, in Lean 4, of the three algorithmic
components of the repository: the confidence scorer
(backend/synthesis/confidence.py), the evidence fusion engine
(backend/retrieval/fusion.py), and the text chunker
(backend/ingestion/chunking.py).  Python floats are idealized as real
numbers, Python strings as lists of characters, Python dicts as
insertion-ordered association lists, and the external k-means call as an
abstract labelling function that may fail.  The theorems settle the
frozen specification claims about these components.
-/

namespace DataSplice

/-! ## Confidence scorer (backend/synthesis/confidence.py) -/

/-- A citation record; only its "file" entry is read by the scorer.
`none` models an absent "file" key; the empty string is falsy in Python,
so both are filtered out by count_distinct_sources. -/
structure Citation where
  file : Option String
deriving DecidableEq

/-- The part of the LLM synthesis response the scorer reads:
`response.get("subtopics", [])` (only its length matters, but we keep the
list) and the truthiness of `response.get("limitations")`. -/
structure Response where
  subtopics : List String
  limitations : Bool

/-- Truthiness of `c.get("file")`: a present, non-empty string. -/
def truthyFile (c : Citation) : Option String :=
  match c.file with
  | some f => if f = "" then none else some f
  | none => none

/-- `count_distinct_sources`: the number of unique truthy "file" values,
`len(set(c.get("file") for c in citations if c.get("file")))`. -/
def count_distinct_sources (citations : List Citation) : ℕ :=
  ((citations.filterMap truthyFile).dedup).length

/-- `compute_coverage_score` with its default `expected_min_citations = 4`. -/
noncomputable def compute_coverage_score (n_citations n_subtopics : ℕ) : ℝ :=
  if n_citations = 0 then 0
  else min ((n_citations : ℝ) / 4) 1 * 0.7 + min ((n_subtopics : ℝ) / 3) 1 * 0.3

/-- `compute_diversity_score` with its default `max_expected = 5`. -/
noncomputable def compute_diversity_score (n_distinct_sources : ℕ) : ℝ :=
  if n_distinct_sources = 0 then 0
  else min (Real.log ((n_distinct_sources : ℝ) + 1) / Real.log (5 + 1)) 1

/-- `calculate_confidence(response, citations_flat)`. -/
noncomputable def calculate_confidence (response : Response)
    (citations_flat : List Citation) : ℝ :=
  let n_citations := citations_flat.length
  let n_subtopics := response.subtopics.length
  let n_sources := count_distinct_sources citations_flat
  if n_citations = 0 then 0.1
  else
    let coverage := compute_coverage_score n_citations n_subtopics
    let diversity := compute_diversity_score n_sources
    let confidence := coverage * 0.4 + diversity * 0.4 + 0.2
    let confidence := if response.limitations then confidence * 0.9 else confidence
    max 0 (min 1 confidence)

/-- `get_confidence_label`. -/
noncomputable def get_confidence_label (score : ℝ) : String :=
  if score < 0.4 then "Low"
  else if score < 0.7 then "Medium"
  else "High"

/-- The reference value of claim C1, written from the specification's words:
0.1 for an empty citation list, otherwise
coverage*0.4 + diversity*0.4 + 0.2 with
coverage = min(n_citations/4,1)*0.7 + min(n_subtopics/3,1)*0.3 and
diversity = min(ln(distinct_sources+1)/ln 6, 1), multiplied by 0.9 when a
truthy "limitations" entry is present, then clamped to [0,1]. -/
noncomputable def confidence_spec (response : Response)
    (citations_flat : List Citation) : ℝ :=
  if citations_flat = [] then 0.1
  else
    let coverage := min ((citations_flat.length : ℝ) / 4) 1 * 0.7 +
      min ((response.subtopics.length : ℝ) / 3) 1 * 0.3
    let diversity :=
      min (Real.log ((count_distinct_sources citations_flat : ℝ) + 1) / Real.log 6) 1
    let confidence := coverage * 0.4 + diversity * 0.4 + 0.2
    let confidence := if response.limitations then confidence * 0.9 else confidence
    max 0 (min 1 confidence)

lemma coverage_nonneg (n m : ℕ) : 0 ≤ compute_coverage_score n m := by
  unfold compute_coverage_score
  split
  · norm_num
  · have h1 : (0 : ℝ) ≤ min ((n : ℝ) / 4) 1 := le_min (by positivity) (by norm_num)
    have h2 : (0 : ℝ) ≤ min ((m : ℝ) / 3) 1 := le_min (by positivity) (by norm_num)
    nlinarith

lemma coverage_le_one (n m : ℕ) : compute_coverage_score n m ≤ 1 := by
  unfold compute_coverage_score
  split
  · norm_num
  · have h1 : min ((n : ℝ) / 4) 1 ≤ 1 := min_le_right _ _
    have h2 : min ((m : ℝ) / 3) 1 ≤ 1 := min_le_right _ _
    have h1' : (0 : ℝ) ≤ min ((n : ℝ) / 4) 1 := le_min (by positivity) (by norm_num)
    have h2' : (0 : ℝ) ≤ min ((m : ℝ) / 3) 1 := le_min (by positivity) (by norm_num)
    nlinarith

lemma diversity_nonneg (n : ℕ) : 0 ≤ compute_diversity_score n := by
  unfold compute_diversity_score
  split
  · norm_num
  · have hlog : (0 : ℝ) ≤ Real.log ((n : ℝ) + 1) := by
      apply Real.log_nonneg
      have : (0 : ℝ) ≤ (n : ℝ) := Nat.cast_nonneg n
      linarith
    have hlog6 : (0 : ℝ) < Real.log (5 + 1) := by
      apply Real.log_pos; norm_num
    exact le_min (by positivity) (by norm_num)

lemma diversity_le_one (n : ℕ) : compute_diversity_score n ≤ 1 := by
  unfold compute_diversity_score
  split
  · norm_num
  · exact min_le_right _ _

/-- The diversity branch for zero sources agrees with the specification's
unguarded formula, because ln 1 = 0. -/
lemma diversity_eq_spec_formula (n : ℕ) :
    compute_diversity_score n =
      min (Real.log ((n : ℝ) + 1) / Real.log 6) 1 := by
  unfold compute_diversity_score
  split
  · rename_i h
    subst h
    simp [Real.log_one]
  · norm_num

/-- C1: for every response and citation list, `calculate_confidence` returns
exactly the reference value of the specification (0.1 on an empty citation
list; otherwise the coverage/diversity formula with the 0.9 limitations
penalty and the final clamp), and the result always lies in [0, 1]. -/
theorem calculate_confidence_eq_spec_and_bounded (response : Response)
    (citations_flat : List Citation) :
    calculate_confidence response citations_flat = confidence_spec response citations_flat ∧
    0 ≤ calculate_confidence response citations_flat ∧
    calculate_confidence response citations_flat ≤ 1 := by
  unfold calculate_confidence confidence_spec
  rcases citations_flat with _ | ⟨c, cs⟩
  · simp
    constructor <;> norm_num
  · have hlen : (c :: cs).length ≠ 0 := by simp
    have hne : (c :: cs) ≠ [] := by simp
    simp only [hlen, hne, if_false]
    constructor
    · have hcov : compute_coverage_score (c :: cs).length response.subtopics.length =
          min (((c :: cs).length : ℝ) / 4) 1 * 0.7 +
            min ((response.subtopics.length : ℝ) / 3) 1 * 0.3 := by
        unfold compute_coverage_score
        rw [if_neg hlen]
      have hdiv := diversity_eq_spec_formula (count_distinct_sources (c :: cs))
      rw [hcov, hdiv]
    · constructor
      · exact le_max_left 0 _
      · exact max_le (by norm_num) (min_le_left 1 _)

/-- C10: when the citation list is non-empty but no citation carries a truthy
"file" entry, the distinct-source count is 0, the diversity component is 0,
and `calculate_confidence` returns coverage*0.4 + 0.2 (times 0.9 when
limitations are present) — not the 0.1 floor. -/
theorem calculate_confidence_no_sources (response : Response)
    (citations_flat : List Citation)
    (hne : citations_flat ≠ [])
    (hfiles : ∀ c ∈ citations_flat, truthyFile c = none) :
    count_distinct_sources citations_flat = 0 ∧
    calculate_confidence response citations_flat =
      (let coverage := compute_coverage_score citations_flat.length response.subtopics.length
       if response.limitations then (coverage * 0.4 + 0.2) * 0.9
       else coverage * 0.4 + 0.2) ∧
    calculate_confidence response citations_flat ≠ 0.1 := by
  have hsrc : count_distinct_sources citations_flat = 0 := by
    unfold count_distinct_sources
    have : citations_flat.filterMap truthyFile = [] := by
      rw [List.filterMap_eq_nil_iff]
      intro c hc
      rw [hfiles c hc]
    rw [this]
    simp
  have hlen : citations_flat.length ≠ 0 := by
    simpa [List.length_eq_zero] using hne
  have hcov0 : 0 ≤ compute_coverage_score citations_flat.length response.subtopics.length :=
    coverage_nonneg _ _
  have hcov1 : compute_coverage_score citations_flat.length response.subtopics.length ≤ 1 :=
    coverage_le_one _ _
  set cov := compute_coverage_score citations_flat.length response.subtopics.length with hcovdef
  have hle1 : cov * 0.4 + 0.2 ≤ 1 := by nlinarith
  have hge1 : (0 : ℝ) ≤ cov * 0.4 + 0.2 := by nlinarith
  have hle2 : (cov * 0.4 + 0.2) * 0.9 ≤ 1 := by nlinarith
  have hge2 : (0 : ℝ) ≤ (cov * 0.4 + 0.2) * 0.9 := by nlinarith
  have hbase : cov * 0.4 + 0 * 0.4 + 0.2 = cov * 0.4 + 0.2 := by ring
  have hdiv : compute_diversity_score 0 = 0 := by unfold compute_diversity_score; simp
  have hval : calculate_confidence response citations_flat =
      (if response.limitations then (cov * 0.4 + 0.2) * 0.9 else cov * 0.4 + 0.2) := by
    unfold calculate_confidence
    simp only [hlen, if_false, hsrc, hdiv]
    rw [← hcovdef, hbase]
    cases hlim : response.limitations
    · show 0 ⊔ 1 ⊓ (cov * 0.4 + 0.2) = cov * 0.4 + 0.2
      rw [min_eq_right hle1, max_eq_right hge1]
    · show 0 ⊔ 1 ⊓ ((cov * 0.4 + 0.2) * 0.9) = (cov * 0.4 + 0.2) * 0.9
      rw [min_eq_right hle2, max_eq_right hge2]
  refine ⟨hsrc, by simpa using hval, ?_⟩
  rw [hval]
  cases hlim : response.limitations
  · rw [if_neg (by simp)]
    intro h
    nlinarith
  · rw [if_pos rfl]
    intro h
    nlinarith

/-- C10 witness input: a synthesis response with one subtopic. -/
def c10resp : Response := ⟨["topic"], false⟩

/-- C10 witness input: two citations, one with an empty "file", one without
a "file" key. -/
def c10cits : List Citation := [⟨some ""⟩, ⟨none⟩]

/-- C10 witness: the theorem applied at a concrete non-empty citation list
none of whose citations carries a truthy "file". -/
theorem calculate_confidence_no_sources_witness :
    count_distinct_sources c10cits = 0 ∧
    calculate_confidence c10resp c10cits =
      (let coverage := compute_coverage_score c10cits.length c10resp.subtopics.length
       if c10resp.limitations then (coverage * 0.4 + 0.2) * 0.9
       else coverage * 0.4 + 0.2) ∧
    calculate_confidence c10resp c10cits ≠ 0.1 :=
  calculate_confidence_no_sources c10resp c10cits (by decide) (by decide)

/-! ## Evidence fusion (backend/retrieval/fusion.py)

Python dicts are modelled as insertion-ordered association lists, the
`defaultdict(list)` append as `dictAppend`, and the external
`KMeans(...).fit_predict` call as an abstract labelling function that may
fail (`Except.error` standing for a raised exception). -/

/-- A chunk as returned by vector-store retrieval: its persisted fields plus
the stored embedding vector.  `embedding = none` models an absent or null
"embedding" entry; Python also treats an empty list as falsy, which the
extraction loop checks separately. -/
structure RChunk where
  chunk_id : String
  text : String
  embedding : Option (List ℝ)

/-- `settings.CLUSTERS` default (backend/utils/config.py). -/
def settings_CLUSTERS : ℕ := 3

/-- `n_clusters = n_clusters or settings.CLUSTERS`: Python `or` replaces both
`None` and `0` by the configured default. -/
def resolve_n_clusters : Option ℕ → ℕ
  | none => settings_CLUSTERS
  | some n => if n = 0 then settings_CLUSTERS else n

/-- One `clustered[int(label)].append(chunk)` step on an insertion-ordered
association list: append to the first entry carrying the key, or add a new
key at the end. -/
def dictAppend {α : Type} : List (ℕ × List α) → ℕ → α → List (ℕ × List α)
  | [], k, x => [(k, [x])]
  | (j, l) :: rest, k, x =>
    if j = k then (j, l ++ [x]) :: rest else (j, l) :: dictAppend rest k x

/-- The grouping loop
`for chunk, label in zip(chunks, cluster_labels): clustered[int(label)].append(chunk)`. -/
def groupPairs {α : Type} (ps : List (α × ℕ)) : List (ℕ × List α) :=
  ps.foldl (fun m p => dictAppend m p.2 p.1) []

/-- The embedding-extraction loop shared by cluster_chunks and
deduplicate_chunks: `some` of all embeddings when every chunk carries a
truthy ("embedding" present and non-empty) vector, `none` as soon as one is
missing (triggering the fail-soft early return). -/
def extract_embeddings : List RChunk → Option (List (List ℝ))
  | [] => some []
  | c :: rest =>
    match c.embedding with
    | some (x :: xs) => (extract_embeddings rest).map (fun es => (x :: xs) :: es)
    | _ => none

/-- `cluster_chunks(chunks, n_clusters)`. -/
def cluster_chunks (kmeans : List (List ℝ) → Except Unit (List ℕ))
    (chunks : List RChunk) (n_clusters : Option ℕ) : List (ℕ × List RChunk) :=
  let n0 := resolve_n_clusters n_clusters
  match chunks with
  | [] => []
  | _ :: _ =>
    let n := min n0 chunks.length
    if n = 1 ∨ chunks.length = 1 then [(0, chunks)]
    else
      match extract_embeddings chunks with
      | none => [(0, chunks)]
      | some embeddings =>
        match kmeans embeddings with
        | Except.error _ => [(0, chunks)]
        | Except.ok cluster_labels => groupPairs (chunks.zip cluster_labels)

/-- `np.dot` of two vectors (equal lengths in every reachable call). -/
noncomputable def dot_product (u v : List ℝ) : ℝ :=
  ((u.zip v).map (fun p => p.1 * p.2)).sum

/-- `np.linalg.norm`: the Euclidean norm. -/
noncomputable def norm2 (u : List ℝ) : ℝ :=
  Real.sqrt ((u.map (fun x => x * x)).sum)

/-- `np.dot(e_i, e_j) / (np.linalg.norm(e_i) * np.linalg.norm(e_j))`. -/
noncomputable def cosine_similarity (u v : List ℝ) : ℝ :=
  dot_product u v / (norm2 u * norm2 v)

open scoped Classical in
/-- The keep-loop of deduplicate_chunks over chunk indices: a candidate `i`
is discarded exactly when some already-kept index `j` has
`similarity > threshold`; otherwise `i` is appended to `keep_indices`. -/
noncomputable def keepGo (t : ℝ) (e : ℕ → List ℝ) : List ℕ → List ℕ → List ℕ
  | acc, [] => acc
  | acc, i :: rest =>
    if ∃ j ∈ acc, cosine_similarity (e i) (e j) > t then keepGo t e acc rest
    else keepGo t e (acc ++ [i]) rest

/-- `keep_indices` after the `for i in range(len(chunks))` loop. -/
noncomputable def keep_indices (t : ℝ) (embeddings : List (List ℝ)) : List ℕ :=
  keepGo t (fun i => embeddings.getD i []) [] (List.range embeddings.length)

/-- `deduplicate_chunks(chunks, threshold)`: identity on lists of length ≤ 1
or with a missing embedding, otherwise `[chunks[i] for i in keep_indices]`. -/
noncomputable def deduplicate_chunks (threshold : ℝ) (chunks : List RChunk) :
    List RChunk :=
  if chunks.length ≤ 1 then chunks
  else
    match extract_embeddings chunks with
    | none => chunks
    | some embeddings =>
      (keep_indices threshold embeddings).filterMap (fun i => chunks[i]?)

/-- `cap_chunks_per_cluster`: truncate every cluster to its first
`max_per_cluster` entries. -/
noncomputable def cap_chunks_per_cluster (clustered : List (ℕ × List RChunk))
    (max_per_cluster : ℕ) : List (ℕ × List RChunk) :=
  clustered.map (fun p => (p.1, p.2.take max_per_cluster))

/-- `fuse_retrieved_chunks`: cluster, deduplicate each cluster in place with
the default threshold 0.95, then cap. -/
noncomputable def fuse_retrieved_chunks
    (kmeans : List (List ℝ) → Except Unit (List ℕ)) (chunks : List RChunk)
    (n_clusters : Option ℕ) (max_per_cluster : ℕ) : List (ℕ × List RChunk) :=
  match chunks with
  | [] => []
  | _ :: _ =>
    let clustered := cluster_chunks kmeans chunks n_clusters
    let clustered := clustered.map (fun p => (p.1, deduplicate_chunks 0.95 p.2))
    cap_chunks_per_cluster clustered max_per_cluster

lemma extract_embeddings_length :
    ∀ (chunks : List RChunk) (embs : List (List ℝ)),
      extract_embeddings chunks = some embs → embs.length = chunks.length := by
  intro chunks
  induction chunks with
  | nil => intro embs h; simp [extract_embeddings] at h; simp [← h]
  | cons c rest ih =>
    intro embs h
    unfold extract_embeddings at h
    match hc : c.embedding with
    | some (x :: xs) =>
      rw [hc] at h
      match he : extract_embeddings rest with
      | some es =>
        rw [he] at h
        simp at h
        have := ih es he
        simp [← h, this]
      | none => rw [he] at h; simp at h
    | some [] => rw [hc] at h; simp at h
    | none => rw [hc] at h; simp at h

lemma snd_flatten_dictAppend {α : Type} (m : List (ℕ × List α)) (k : ℕ) (x : α) :
    ((dictAppend m k x).map Prod.snd).flatten.Perm
      ((m.map Prod.snd).flatten ++ [x]) := by
  induction m with
  | nil => simp [dictAppend]
  | cons p rest ih =>
    obtain ⟨j, l⟩ := p
    by_cases hjk : j = k
    · simp only [dictAppend, if_pos hjk, List.map_cons, List.flatten_cons]
      rw [List.append_assoc l [x], List.append_assoc l]
      exact List.Perm.append_left l List.perm_append_comm
    · simp only [dictAppend, if_neg hjk, List.map_cons, List.flatten_cons]
      rw [List.append_assoc l]
      exact ih.append_left l

lemma snd_flatten_groupAux {α : Type} :
    ∀ (ps : List (α × ℕ)) (m : List (ℕ × List α)),
      ((ps.foldl (fun acc p => dictAppend acc p.2 p.1) m).map Prod.snd).flatten.Perm
        ((m.map Prod.snd).flatten ++ ps.map Prod.fst) := by
  intro ps
  induction ps with
  | nil => intro m; simp
  | cons p ps ih =>
    intro m
    simp only [List.foldl_cons, List.map_cons]
    have h1 := ih (dictAppend m p.2 p.1)
    have h2 := (snd_flatten_dictAppend m p.2 p.1).append_right (ps.map Prod.fst)
    have h3 := h1.trans h2
    rwa [List.append_assoc, List.singleton_append] at h3

/-- First value stored under a key, `[]` when the key is absent. -/
def getValD {α : Type} : List (ℕ × List α) → ℕ → List α
  | [], _ => []
  | (j, l) :: rest, k => if j = k then l else getValD rest k

lemma getValD_dictAppend {α : Type} (m : List (ℕ × List α)) (k k' : ℕ) (x : α) :
    getValD (dictAppend m k x) k' =
      if k' = k then getValD m k' ++ [x] else getValD m k' := by
  induction m with
  | nil =>
    simp only [dictAppend, getValD]
    split_ifs <;> simp_all
  | cons p rest ih =>
    obtain ⟨j, l⟩ := p
    simp only [dictAppend, getValD]
    split_ifs <;> simp_all [getValD]

lemma getValD_foldl {α : Type} :
    ∀ (ps : List (α × ℕ)) (m : List (ℕ × List α)) (k : ℕ),
      getValD (ps.foldl (fun acc p => dictAppend acc p.2 p.1) m) k =
        getValD m k ++ (ps.filter (fun p => p.2 == k)).map Prod.fst := by
  intro ps
  induction ps with
  | nil => intro m k; simp
  | cons p ps ih =>
    intro m k
    simp only [List.foldl_cons]
    rw [ih, getValD_dictAppend]
    by_cases hk : p.2 = k
    · rw [if_pos hk.symm]
      simp [List.filter_cons, hk, List.append_assoc]
    · rw [if_neg (fun hh => hk hh.symm)]
      simp [List.filter_cons, hk]

/-- Keys of the association list, in insertion order. -/
def keysOf {α : Type} (m : List (ℕ × List α)) : List ℕ := m.map Prod.fst

lemma keysOf_nil {α : Type} : keysOf ([] : List (ℕ × List α)) = [] := rfl

lemma keysOf_cons {α : Type} (p : ℕ × List α) (rest : List (ℕ × List α)) :
    keysOf (p :: rest) = p.1 :: keysOf rest := rfl

lemma mem_keys_dictAppend {α : Type} (m : List (ℕ × List α)) (k j : ℕ) (x : α) :
    j ∈ keysOf (dictAppend m k x) ↔ j ∈ keysOf m ∨ j = k := by
  induction m with
  | nil => simp [dictAppend, keysOf]
  | cons p rest ih =>
    obtain ⟨jp, lp⟩ := p
    by_cases h : jp = k
    · subst h
      have hred : dictAppend ((jp, lp) :: rest) jp x = (jp, lp ++ [x]) :: rest := by
        simp [dictAppend]
      rw [hred, keysOf_cons, keysOf_cons]
      simp only [List.mem_cons]
      tauto
    · simp only [dictAppend, if_neg h, keysOf_cons, List.mem_cons, ih]
      tauto

lemma nodup_keys_dictAppend {α : Type} (m : List (ℕ × List α)) (k : ℕ) (x : α)
    (h : (keysOf m).Nodup) : (keysOf (dictAppend m k x)).Nodup := by
  induction m with
  | nil => simp [dictAppend, keysOf]
  | cons p rest ih =>
    obtain ⟨j, l⟩ := p
    rw [keysOf_cons, List.nodup_cons] at h
    by_cases hjk : j = k
    · subst hjk
      have hred : dictAppend ((j, l) :: rest) j x = (j, l ++ [x]) :: rest := by
        simp [dictAppend]
      rw [hred, keysOf_cons, List.nodup_cons]
      exact h
    · simp only [dictAppend, if_neg hjk, keysOf_cons, List.nodup_cons]
      refine ⟨?_, ih h.2⟩
      rw [mem_keys_dictAppend]
      push_neg
      exact ⟨h.1, hjk⟩

lemma nodup_keys_foldl {α : Type} :
    ∀ (ps : List (α × ℕ)) (m : List (ℕ × List α)),
      (keysOf m).Nodup →
      (keysOf (ps.foldl (fun acc p => dictAppend acc p.2 p.1) m)).Nodup := by
  intro ps
  induction ps with
  | nil => intro m h; simpa using h
  | cons p ps ih =>
    intro m h
    simp only [List.foldl_cons]
    exact ih _ (nodup_keys_dictAppend m p.2 p.1 h)

lemma mem_eq_getValD {α : Type} :
    ∀ (m : List (ℕ × List α)), (keysOf m).Nodup →
      ∀ kl ∈ m, getValD m kl.1 = kl.2 := by
  intro m
  induction m with
  | nil => intro _ kl h; simp at h
  | cons p rest ih =>
    obtain ⟨j, l⟩ := p
    intro hnd kl hkl
    rw [keysOf_cons, List.nodup_cons] at hnd
    rcases List.mem_cons.mp hkl with h | h
    · subst h
      simp [getValD]
    · have hne : j ≠ kl.1 := by
        intro hcontra
        apply hnd.1
        rw [hcontra]
        exact List.mem_map.mpr ⟨kl, h, rfl⟩
      simp only [getValD, if_neg hne]
      exact ih hnd.2 kl h

/-- Every value list stored by the grouping loop is the relevance-ordered
selection of the input pairs carrying that label. -/
lemma groupPairs_mem_eq {α : Type} (ps : List (α × ℕ)) :
    ∀ kl ∈ groupPairs ps, kl.2 = (ps.filter (fun p => p.2 == kl.1)).map Prod.fst := by
  intro kl hkl
  have hnd : (keysOf (groupPairs ps)).Nodup := by
    apply nodup_keys_foldl
    simp [keysOf]
  have h1 := mem_eq_getValD (groupPairs ps) hnd kl hkl
  have h2 := getValD_foldl ps [] kl.1
  unfold groupPairs at h1
  rw [h2] at h1
  simpa [getValD] using h1.symm

lemma map_fst_zip_sublist {α β : Type} :
    ∀ (c : List α) (l : List β), ((c.zip l).map Prod.fst).Sublist c := by
  intro c
  induction c with
  | nil => intro l; simp
  | cons a c ih =>
    intro l
    cases l with
    | nil => simp
    | cons b l =>
      simp only [List.zip_cons_cons, List.map_cons]
      exact (ih l).cons₂ a

lemma zip_filter_sublist {α β : Type} (c : List α) (l : List β)
    (q : α × β → Bool) : (((c.zip l).filter q).map Prod.fst).Sublist c :=
  ((List.filter_sublist _).map Prod.fst).trans (map_fst_zip_sublist c l)

/-- C2: for every labelling function that (like sklearn's fit_predict)
returns one label per input row, every chunk list and every n_clusters, the
clusters returned by cluster_chunks partition the input: the concatenation
of all cluster member lists is a permutation of the input (each chunk
appears exactly once), and each cluster list is a sublist of the input, so
within a cluster chunks keep their input (relevance) order. -/
theorem cluster_chunks_partition
    (kmeans : List (List ℝ) → Except Unit (List ℕ)) (chunks : List RChunk)
    (n_clusters : Option ℕ)
    (hk : ∀ embs labels, kmeans embs = Except.ok labels →
      labels.length = embs.length) :
    ((cluster_chunks kmeans chunks n_clusters).map Prod.snd).flatten.Perm chunks ∧
    ∀ p ∈ cluster_chunks kmeans chunks n_clusters, p.2.Sublist chunks := by
  have hbase : ∀ (l : List RChunk),
      (([((0 : ℕ), l)].map Prod.snd).flatten).Perm l ∧
        ∀ p ∈ [((0 : ℕ), l)], p.2.Sublist l := by
    intro l
    constructor
    · simp
    · intro p hp
      simp at hp
      subst hp
      exact List.Sublist.refl _
  unfold cluster_chunks
  cases chunks with
  | nil => simp
  | cons c cs =>
    simp only
    split
    · exact hbase _
    · split
      · exact hbase _
      · rename_i embs he
        split
        · exact hbase _
        · rename_i labels hkm
          have hlen : labels.length = (c :: cs).length := by
            rw [hk embs labels hkm]
            exact extract_embeddings_length _ _ he
          constructor
          · have hperm := snd_flatten_groupAux ((c :: cs).zip labels) []
            simp only [List.map_nil, List.flatten_nil, List.nil_append] at hperm
            have hfst : ((c :: cs).zip labels).map Prod.fst = c :: cs :=
              List.map_fst_zip _ _ (le_of_eq hlen.symm)
            rw [hfst] at hperm
            show ((groupPairs ((c :: cs).zip labels)).map Prod.snd).flatten.Perm (c :: cs)
            unfold groupPairs
            exact hperm
          · intro p hp
            have := groupPairs_mem_eq _ p hp
            rw [this]
            exact zip_filter_sublist _ _ _

/-- C2 witness labelling function: distinct labels, one per row. -/
def c2kmeans : List (List ℝ) → Except Unit (List ℕ) :=
  fun embs => Except.ok (List.range embs.length)

/-- C2 witness input chunks. -/
noncomputable def c2chunks : List RChunk :=
  [⟨"a", "text a", some [1, 0]⟩, ⟨"b", "text b", some [0, 1]⟩,
   ⟨"c", "text c", some [1, 1]⟩]

/-- C2 witness: the partition property at a concrete three-chunk input with
n_clusters = 2. -/
theorem cluster_chunks_partition_witness :
    ((cluster_chunks c2kmeans c2chunks (some 2)).map Prod.snd).flatten.Perm c2chunks ∧
    ∀ p ∈ cluster_chunks c2kmeans c2chunks (some 2), p.2.Sublist c2chunks :=
  cluster_chunks_partition c2kmeans c2chunks (some 2)
    (by
      intro embs labels h
      simp only [c2kmeans, Except.ok.injEq] at h
      rw [← h]
      exact List.length_range _)

/-- C7: on a non-empty input whose effective cluster count exceeds 1, if some
chunk lacks a truthy embedding, or the clustering computation fails, then
cluster_chunks returns the single-cluster fallback {0: all chunks in input
order}; being a total function it propagates no error. -/
theorem cluster_chunks_failsoft
    (kmeans : List (List ℝ) → Except Unit (List ℕ)) (chunks : List RChunk)
    (n_clusters : Option ℕ)
    (hn : 1 < min (resolve_n_clusters n_clusters) chunks.length)
    (hfail : extract_embeddings chunks = none ∨
      ∃ embs e, extract_embeddings chunks = some embs ∧
        kmeans embs = Except.error e) :
    cluster_chunks kmeans chunks n_clusters = [(0, chunks)] := by
  cases chunks with
  | nil => simp at hn
  | cons c cs =>
    unfold cluster_chunks
    simp only
    have hcond : ¬(min (resolve_n_clusters n_clusters) (c :: cs).length = 1 ∨
        (c :: cs).length = 1) := by
      push_neg
      constructor
      · omega
      · have h2 := lt_of_lt_of_le hn (min_le_right _ _)
        omega
    rw [if_neg hcond]
    rcases hfail with h | ⟨embs, e, hsome, herr⟩
    · rw [h]
    · rw [hsome]
      show (match kmeans embs with
        | Except.error _ => [((0 : ℕ), c :: cs)]
        | Except.ok cluster_labels => groupPairs ((c :: cs).zip cluster_labels)) =
        [((0 : ℕ), c :: cs)]
      rw [herr]

/-- C7 witness input: the first chunk has no embedding. -/
noncomputable def c7chunks : List RChunk :=
  [⟨"a", "text a", none⟩, ⟨"b", "text b", some [1, 0]⟩]

/-- C7 witness: the fallback at a concrete input with a missing embedding. -/
theorem cluster_chunks_failsoft_witness :
    cluster_chunks c2kmeans c7chunks (some 2) = [(0, c7chunks)] :=
  cluster_chunks_failsoft c2kmeans c7chunks (some 2)
    (by simp [resolve_n_clusters, c7chunks]) (Or.inl rfl)

/-- C8: every cluster list output by cap_chunks_per_cluster is exactly the
first max_per_cluster entries of the corresponding input cluster, and hence
every cluster output by fuse_retrieved_chunks is the first max_per_cluster
entries of the corresponding deduplicated cluster; no output cluster holds
more than max_per_cluster members. -/
theorem cap_chunks_per_cluster_bound
    (kmeans : List (List ℝ) → Except Unit (List ℕ))
    (clustered : List (ℕ × List RChunk)) (chunks : List RChunk)
    (n_clusters : Option ℕ) (max_per_cluster : ℕ) :
    (∀ p ∈ cap_chunks_per_cluster clustered max_per_cluster,
      p.2.length ≤ max_per_cluster ∧
        ∃ l, (p.1, l) ∈ clustered ∧ p.2 = l.take max_per_cluster) ∧
    (∀ p ∈ fuse_retrieved_chunks kmeans chunks n_clusters max_per_cluster,
      p.2.length ≤ max_per_cluster ∧
        ∃ l, (p.1, l) ∈ cluster_chunks kmeans chunks n_clusters ∧
          p.2 = (deduplicate_chunks 0.95 l).take max_per_cluster) := by
  have hcap : ∀ (cl : List (ℕ × List RChunk)) (p : ℕ × List RChunk),
      p ∈ cap_chunks_per_cluster cl max_per_cluster →
      p.2.length ≤ max_per_cluster ∧
        ∃ l, (p.1, l) ∈ cl ∧ p.2 = l.take max_per_cluster := by
    intro cl p hp
    unfold cap_chunks_per_cluster at hp
    obtain ⟨q, hq, hpq⟩ := List.mem_map.mp hp
    constructor
    · rw [← hpq]
      simp only [List.length_take]
      exact min_le_left _ _
    · refine ⟨q.2, ?_, ?_⟩
      · rw [← hpq]
        simpa using hq
      · rw [← hpq]
  constructor
  · exact hcap clustered
  · intro p hp
    cases chunks with
    | nil => simp [fuse_retrieved_chunks] at hp
    | cons c cs =>
      unfold fuse_retrieved_chunks at hp
      simp only at hp
      obtain ⟨h1, l', hl', h2⟩ := hcap _ p hp
      obtain ⟨q, hq, hpq⟩ := List.mem_map.mp hl'
      refine ⟨h1, q.2, ?_, ?_⟩
      · have : p.1 = q.1 := by
          have := congrArg Prod.fst hpq
          simpa using this.symm
        rw [this]
        simpa using hq
      · have : l' = deduplicate_chunks 0.95 q.2 := by
          have := congrArg Prod.snd hpq
          simpa using this.symm
        rw [h2, this]

/-! ### Characterization of the greedy deduplication loop -/

lemma keepGo_nil (t : ℝ) (e : ℕ → List ℝ) (acc : List ℕ) :
    keepGo t e acc [] = acc := rfl

open scoped Classical in
lemma keepGo_cons (t : ℝ) (e : ℕ → List ℝ) (acc : List ℕ) (i : ℕ)
    (rest : List ℕ) :
    keepGo t e acc (i :: rest) =
      if ∃ j ∈ acc, cosine_similarity (e i) (e j) > t then keepGo t e acc rest
      else keepGo t e (acc ++ [i]) rest := rfl

/-- Invariant of the keep-loop along `range' m k`: the kept indices stay
strictly increasing, stay below the scanned bound, and an index is kept
exactly when no earlier kept index is too similar to it. -/
lemma keepGo_invariant (t : ℝ) (e : ℕ → List ℝ) :
    ∀ (k m : ℕ) (acc : List ℕ),
      acc.Pairwise (· < ·) →
      (∀ j ∈ acc, j < m) →
      (∀ i, i ∈ acc ↔ (i < m ∧ ∀ j ∈ acc, j < i →
        ¬ cosine_similarity (e i) (e j) > t)) →
      (keepGo t e acc (List.range' m k)).Pairwise (· < ·) ∧
      (∀ j ∈ keepGo t e acc (List.range' m k), j < m + k) ∧
      (∀ i, i ∈ keepGo t e acc (List.range' m k) ↔
        (i < m + k ∧ ∀ j ∈ keepGo t e acc (List.range' m k), j < i →
          ¬ cosine_similarity (e i) (e j) > t)) := by
  intro k
  induction k with
  | zero =>
    intro m acc h1 h2 h3
    have hr : List.range' m 0 = [] := rfl
    rw [hr, keepGo_nil]
    simp only [Nat.add_zero]
    exact ⟨h1, h2, h3⟩
  | succ k ih =>
    intro m acc h1 h2 h3
    have hr : List.range' m (k + 1) = m :: List.range' (m + 1) k := rfl
    rw [hr, keepGo_cons]
    have harith : m + 1 + k = m + (k + 1) := by omega
    by_cases hC : ∃ j ∈ acc, cosine_similarity (e m) (e j) > t
    · rw [if_pos hC]
      have h2' : ∀ j ∈ acc, j < m + 1 := fun j hj => Nat.lt_succ_of_lt (h2 j hj)
      have h3' : ∀ i, i ∈ acc ↔ (i < m + 1 ∧ ∀ j ∈ acc, j < i →
          ¬ cosine_similarity (e i) (e j) > t) := by
        intro i
        constructor
        · intro hi
          obtain ⟨hlt, hP⟩ := (h3 i).mp hi
          exact ⟨Nat.lt_succ_of_lt hlt, hP⟩
        · rintro ⟨hi, hP⟩
          rcases Nat.lt_succ_iff_lt_or_eq.mp hi with hlt | heq
          · exact (h3 i).mpr ⟨hlt, hP⟩
          · subst heq
            obtain ⟨j, hj, hsim⟩ := hC
            exact absurd hsim (hP j hj (h2 j hj))
      have := ih (m + 1) acc h1 h2' h3'
      rwa [harith] at this
    · rw [if_neg hC]
      have h1' : (acc ++ [m]).Pairwise (· < ·) := by
        rw [List.pairwise_append]
        refine ⟨h1, List.pairwise_singleton _ _, ?_⟩
        intro a ha b hb
        rw [List.mem_singleton] at hb
        subst hb
        exact h2 a ha
      have h2' : ∀ j ∈ acc ++ [m], j < m + 1 := by
        intro j hj
        rcases List.mem_append.mp hj with hj | hj
        · exact Nat.lt_succ_of_lt (h2 j hj)
        · rw [List.mem_singleton] at hj
          omega
      have h3' : ∀ i, i ∈ acc ++ [m] ↔ (i < m + 1 ∧ ∀ j ∈ acc ++ [m], j < i →
          ¬ cosine_similarity (e i) (e j) > t) := by
        intro i
        constructor
        · intro hi
          rcases List.mem_append.mp hi with hi | hi
          · obtain ⟨hlt, hP⟩ := (h3 i).mp hi
            refine ⟨Nat.lt_succ_of_lt hlt, ?_⟩
            intro j hj hji
            rcases List.mem_append.mp hj with hj | hj
            · exact hP j hj hji
            · rw [List.mem_singleton] at hj
              subst hj
              omega
          · rw [List.mem_singleton] at hi
            subst hi
            refine ⟨Nat.lt_succ_self _, ?_⟩
            intro j hj hji
            rcases List.mem_append.mp hj with hj | hj
            · intro hsim
              exact hC ⟨j, hj, hsim⟩
            · rw [List.mem_singleton] at hj
              omega
        · rintro ⟨hi, hP⟩
          rcases Nat.lt_succ_iff_lt_or_eq.mp hi with hlt | heq
          · have : i ∈ acc := by
              refine (h3 i).mpr ⟨hlt, ?_⟩
              intro j hj hji
              exact hP j (List.mem_append_left _ hj) hji
            exact List.mem_append_left _ this
          · subst heq
            exact List.mem_append_right _ (List.mem_singleton.mpr rfl)
      have := ih (m + 1) (acc ++ [m]) h1' h2' h3'
      rwa [harith] at this

/-- The characterization of `keep_indices`: strictly increasing, in range,
and an index is kept exactly when its similarity to every earlier kept index
stays at or below the threshold. -/
lemma keep_indices_spec (t : ℝ) (embs : List (List ℝ)) :
    (keep_indices t embs).Pairwise (· < ·) ∧
    (∀ j ∈ keep_indices t embs, j < embs.length) ∧
    (∀ i, i ∈ keep_indices t embs ↔
      (i < embs.length ∧ ∀ j ∈ keep_indices t embs, j < i →
        ¬ cosine_similarity (embs.getD i []) (embs.getD j []) > t)) := by
  have h := keepGo_invariant t (fun i => embs.getD i []) embs.length 0 []
    List.Pairwise.nil (by simp) (by simp)
  rw [← List.range_eq_range'] at h
  simpa only [Nat.zero_add, keep_indices] using h

lemma list_getD_eq_getElem? {α : Type} (l : List α) (i : ℕ) (d : α) :
    l.getD i d = (l[i]?).getD d := by
  induction l generalizing i with
  | nil => cases i <;> simp [List.getD]
  | cons a l ih =>
    cases i with
    | zero => simp [List.getD]
    | succ i => simp [List.getD, ih]

lemma filterMap_getElem_sublist_aux {α : Type} (l : List α) :
    ∀ (is : List ℕ) (d : ℕ), is.Pairwise (· < ·) → (∀ j ∈ is, d ≤ j) →
      (is.filterMap (fun i => l[i]?)).Sublist (l.drop d) := by
  intro is
  induction is with
  | nil => intro d _ _; simp
  | cons i is ih =>
    intro d hpw hd
    rw [List.pairwise_cons] at hpw
    cases hi : l[i]? with
    | none =>
      have hilen : l.length ≤ i := by
        simpa [List.getElem?_eq_none_iff] using hi
      have hrest : is.filterMap (fun j => l[j]?) = [] := by
        rw [List.filterMap_eq_nil_iff]
        intro j hj
        have : l.length ≤ j := le_of_lt (lt_of_le_of_lt hilen (hpw.1 j hj))
        simpa [List.getElem?_eq_none_iff] using this
      rw [List.filterMap_cons_none hi, hrest]
      exact List.nil_sublist _
    | some a =>
      have hilt : i < l.length := by
        by_contra hcon
        rw [List.getElem?_eq_none_iff.mpr (le_of_not_lt hcon)] at hi
        exact Option.noConfusion hi
      have hdle : d ≤ i := hd i (List.mem_cons_self i is)
      rw [List.filterMap_cons_some hi]
      have hIH : (is.filterMap (fun j => l[j]?)).Sublist (l.drop (i + 1)) :=
        ih (i + 1) hpw.2 (fun j hj => hpw.1 j hj)
      have hdecomp : l.drop d = (l.drop d).take (i - d) ++ (a :: l.drop (i + 1)) := by
        have h1 : (l.drop d).drop (i - d) = l.drop i := by
          rw [List.drop_drop]
          congr 1
          omega
        have ha : l[i] = a := by
          rw [List.getElem?_eq_getElem hilt] at hi
          exact Option.some.inj hi
        have h2 : l.drop i = a :: l.drop (i + 1) := by
          rw [← ha]
          exact (List.getElem_cons_drop l i hilt).symm
        have h3 := List.take_append_drop (i - d) (l.drop d)
        rw [h1, h2] at h3
        exact h3.symm
      rw [hdecomp]
      refine List.Sublist.trans ?_ (List.sublist_append_right _ _)
      exact List.Sublist.cons₂ a hIH

/-- Selecting entries of `l` at a strictly increasing index list yields a
sublist of `l`. -/
lemma filterMap_getElem_sublist {α : Type} (l : List α) (is : List ℕ)
    (h : is.Pairwise (· < ·)) :
    (is.filterMap (fun i => l[i]?)).Sublist l := by
  have := filterMap_getElem_sublist_aux l is 0 h (fun j _ => Nat.zero_le j)
  simpa using this

/-- The per-chunk content of a successful embedding extraction. -/
lemma extract_embeddings_forall₂ :
    ∀ (chunks : List RChunk) (embs : List (List ℝ)),
      extract_embeddings chunks = some embs →
      List.Forall₂ (fun c e => c.embedding = some e ∧ e ≠ []) chunks embs := by
  intro chunks
  induction chunks with
  | nil =>
    intro embs h
    simp [extract_embeddings] at h
    subst h
    exact List.Forall₂.nil
  | cons c rest ih =>
    intro embs h
    unfold extract_embeddings at h
    match hc : c.embedding with
    | some (x :: xs) =>
      rw [hc] at h
      match he : extract_embeddings rest with
      | some es =>
        rw [he] at h
        simp only [Option.map_some', Option.some.injEq] at h
        rw [← h]
        exact List.Forall₂.cons ⟨hc, List.cons_ne_nil x xs⟩ (ih es he)
      | none => rw [he] at h; simp at h
    | some [] => rw [hc] at h; simp at h
    | none => rw [hc] at h; simp at h

/-- Converse: chunk-by-chunk truthy embeddings make extraction succeed. -/
lemma forall₂_extract_embeddings :
    ∀ (chunks : List RChunk) (embs : List (List ℝ)),
      List.Forall₂ (fun c e => c.embedding = some e ∧ e ≠ []) chunks embs →
      extract_embeddings chunks = some embs := by
  intro chunks embs h
  induction h with
  | nil => rfl
  | cons hce hrest ih =>
    rename_i c e cs es
    obtain ⟨hc, hne⟩ := hce
    match e, hne with
    | x :: xs, _ =>
      unfold extract_embeddings
      rw [hc, ih]
      rfl

lemma forall₂_getElem? {α β : Type} {R : α → β → Prop} :
    ∀ {l₁ : List α} {l₂ : List β}, List.Forall₂ R l₁ l₂ →
      ∀ (i : ℕ), (l₁[i]? = none ∧ l₂[i]? = none) ∨
        (∃ a b, l₁[i]? = some a ∧ l₂[i]? = some b ∧ R a b) := by
  intro l₁ l₂ h
  induction h with
  | nil => intro i; left; simp
  | cons hab hrest ih =>
    rename_i a b l₁ l₂
    intro i
    cases i with
    | zero => right; exact ⟨a, b, by simp, by simp, hab⟩
    | succ i => simpa using ih i

/-- Selecting two `Forall₂`-related lists at the same indices preserves the
relation. -/
lemma filterMap_getElem_forall₂ {α β : Type} {R : α → β → Prop}
    {l₁ : List α} {l₂ : List β} (h : List.Forall₂ R l₁ l₂) :
    ∀ (is : List ℕ),
      List.Forall₂ R (is.filterMap (fun i => l₁[i]?))
        (is.filterMap (fun i => l₂[i]?)) := by
  intro is
  induction is with
  | nil => exact List.Forall₂.nil
  | cons i is ih =>
    rcases forall₂_getElem? h i with ⟨h1, h2⟩ | ⟨a, b, h1, h2, hab⟩
    · rw [List.filterMap_cons_none h1, List.filterMap_cons_none h2]
      exact ih
    · rw [List.filterMap_cons_some h1, List.filterMap_cons_some h2]
      exact List.Forall₂.cons hab ih

lemma filterMap_getElem_length {α : Type} (l : List α) :
    ∀ (is : List ℕ), (∀ i ∈ is, i < l.length) →
      (is.filterMap (fun i => l[i]?)).length = is.length := by
  intro is
  induction is with
  | nil => intro _; rfl
  | cons i is ih =>
    intro h
    have hi : i < l.length := h i (List.mem_cons_self i is)
    rw [List.filterMap_cons_some (List.getElem?_eq_getElem hi)]
    simp only [List.length_cons]
    rw [ih (fun j hj => h j (List.mem_cons_of_mem i hj))]

lemma getElem?_filterMap_getElem {α : Type} (l : List α) :
    ∀ (is : List ℕ), (∀ i ∈ is, i < l.length) → ∀ (a : ℕ),
      (is.filterMap (fun i => l[i]?))[a]? = is[a]?.bind (fun i => l[i]?) := by
  intro is
  induction is with
  | nil => intro _ a; simp
  | cons i is ih =>
    intro h a
    have hi : i < l.length := h i (List.mem_cons_self i is)
    rw [List.filterMap_cons_some (List.getElem?_eq_getElem hi)]
    cases a with
    | zero => simp [List.getElem?_eq_getElem hi]
    | succ a =>
      simp only [List.getElem?_cons_succ]
      exact ih (fun j hj => h j (List.mem_cons_of_mem i hj)) a

/-- When no scanned pair is over-similar, the keep-loop keeps everything. -/
lemma keepGo_keeps_all (t : ℝ) (e : ℕ → List ℝ) (n : ℕ)
    (H : ∀ a b, b < a → a < n → ¬ cosine_similarity (e a) (e b) > t) :
    ∀ (k m : ℕ) (acc : List ℕ), m + k ≤ n → (∀ j ∈ acc, j < m) →
      keepGo t e acc (List.range' m k) = acc ++ List.range' m k := by
  intro k
  induction k with
  | zero =>
    intro m acc _ _
    have hr : List.range' m 0 = [] := rfl
    rw [hr, keepGo_nil, List.append_nil]
  | succ k ih =>
    intro m acc hmk hacc
    have hr : List.range' m (k + 1) = m :: List.range' (m + 1) k := rfl
    rw [hr, keepGo_cons, if_neg]
    · have h1 := ih (m + 1) (acc ++ [m]) (by omega) (by
        intro j hj
        rcases List.mem_append.mp hj with hj | hj
        · exact Nat.lt_succ_of_lt (hacc j hj)
        · rw [List.mem_singleton] at hj
          omega)
      rw [h1, List.append_assoc, List.singleton_append]
    · rintro ⟨j, hj, hsim⟩
      exact H m j (hacc j hj) (by omega) hsim

lemma range_filterMap_getElem {α : Type} :
    ∀ (l : List α), (List.range l.length).filterMap (fun i => l[i]?) = l := by
  intro l
  induction l with
  | nil => rfl
  | cons a l ih =>
    rw [List.length_cons, List.range_succ_eq_map]
    rw [List.filterMap_cons_some (by simp : (a :: l)[0]? = some a)]
    rw [List.filterMap_map]
    have : ((fun i => (a :: l)[i]?) ∘ Nat.succ) = fun i => l[i]? := by
      funext i
      simp
    rw [this, ih]

/-- When no pair of vectors is over-similar, every index is kept. -/
lemma keep_indices_all (t : ℝ) (es : List (List ℝ))
    (H : ∀ a b, b < a → a < es.length →
      ¬ cosine_similarity (es.getD a []) (es.getD b []) > t) :
    keep_indices t es = List.range es.length := by
  unfold keep_indices
  rw [List.range_eq_range']
  have := keepGo_keeps_all t (fun i => es.getD i []) es.length H es.length 0 []
    (by omega) (by simp)
  simpa using this

/-- C3: on chunk lists whose chunks all carry (same-dimension, truthy)
embeddings, deduplicate_chunks returns a sublist of the input (hence never
longer), keeps the first element first, and equals the greedy index
selection in which index i survives exactly when its cosine similarity to
every already-kept earlier index stays at or below the threshold — later
chunks are never consulted. -/
theorem deduplicate_chunks_greedy (t : ℝ) (chunks : List RChunk)
    (embs : List (List ℝ)) (d : ℕ)
    (he : extract_embeddings chunks = some embs)
    (_hdim : ∀ u ∈ embs, u.length = d) :
    (deduplicate_chunks t chunks).Sublist chunks ∧
    (deduplicate_chunks t chunks).length ≤ chunks.length ∧
    (deduplicate_chunks t chunks).head? = chunks.head? ∧
    deduplicate_chunks t chunks =
      (keep_indices t embs).filterMap (fun i => chunks[i]?) ∧
    (∀ i, i ∈ keep_indices t embs ↔
      (i < chunks.length ∧ ∀ j ∈ keep_indices t embs, j < i →
        ¬ cosine_similarity (embs.getD i []) (embs.getD j []) > t)) := by
  obtain ⟨hsort, hbound, hiff⟩ := keep_indices_spec t embs
  have hlen : embs.length = chunks.length := extract_embeddings_length _ _ he
  have heq : deduplicate_chunks t chunks =
      (keep_indices t embs).filterMap (fun i => chunks[i]?) := by
    unfold deduplicate_chunks
    by_cases h1 : chunks.length ≤ 1
    · rw [if_pos h1]
      cases chunks with
      | nil =>
        simp [extract_embeddings] at he
        subst he
        rfl
      | cons c cs =>
        cases cs with
        | nil =>
          have h0 : embs.length = 1 := by rw [hlen]; rfl
          unfold keep_indices
          rw [h0]
          rw [show List.range 1 = [0] from rfl, keepGo_cons, if_neg (by simp),
            keepGo_nil]
          simp
        | cons c2 cs2 => simp at h1
    · rw [if_neg h1, he]
  have hsub : (deduplicate_chunks t chunks).Sublist chunks := by
    rw [heq]
    exact filterMap_getElem_sublist chunks _ hsort
  refine ⟨hsub, hsub.length_le, ?_, heq, ?_⟩
  · cases chunks with
    | nil =>
      rw [heq]
      simp
    | cons c cs =>
      have h0mem : 0 ∈ keep_indices t embs := by
        rw [hiff]
        refine ⟨by rw [hlen]; simp, ?_⟩
        intro j _ hj
        omega
      obtain ⟨rest, hki⟩ : ∃ rest, keep_indices t embs = 0 :: rest := by
        cases hki : keep_indices t embs with
        | nil => rw [hki] at h0mem; simp at h0mem
        | cons k ks =>
          rw [hki] at h0mem hsort
          rcases List.mem_cons.mp h0mem with h | h
          · exact ⟨ks, by rw [← h]⟩
          · have := (List.pairwise_cons.mp hsort).1 0 h
            omega
      rw [heq, hki,
        List.filterMap_cons_some (show (c :: cs)[0]? = some c by simp)]
      simp
  · intro i
    rw [← hlen]
    exact hiff i

/-- C3 witness input chunks (all carrying two-dimensional embeddings). -/
noncomputable def c3chunks : List RChunk :=
  [⟨"a", "text a", some [1, 0]⟩, ⟨"b", "text b", some [0, 1]⟩]

/-- C3 witness embeddings, as extracted from c3chunks. -/
noncomputable def c3embs : List (List ℝ) := [[1, 0], [0, 1]]

/-- C3 witness: the greedy characterization at a concrete two-chunk input
with the default threshold 0.95. -/
theorem deduplicate_chunks_greedy_witness :
    (deduplicate_chunks 0.95 c3chunks).Sublist c3chunks ∧
    (deduplicate_chunks 0.95 c3chunks).length ≤ c3chunks.length ∧
    (deduplicate_chunks 0.95 c3chunks).head? = c3chunks.head? ∧
    deduplicate_chunks 0.95 c3chunks =
      (keep_indices 0.95 c3embs).filterMap (fun i => c3chunks[i]?) ∧
    (∀ i, i ∈ keep_indices 0.95 c3embs ↔
      (i < c3chunks.length ∧ ∀ j ∈ keep_indices 0.95 c3embs, j < i →
        ¬ cosine_similarity (c3embs.getD i []) (c3embs.getD j []) > 0.95)) :=
  deduplicate_chunks_greedy 0.95 c3chunks c3embs 2 rfl (by decide)

/-- C9: deduplicate_chunks is idempotent on chunk lists whose chunks all
carry (same-dimension, truthy) embeddings: every pair surviving one pass is
at or below the threshold, so a second pass keeps everything. -/
theorem deduplicate_chunks_idempotent (t : ℝ) (chunks : List RChunk)
    (embs : List (List ℝ)) (d : ℕ)
    (he : extract_embeddings chunks = some embs)
    (_hdim : ∀ u ∈ embs, u.length = d) :
    deduplicate_chunks t (deduplicate_chunks t chunks) =
      deduplicate_chunks t chunks := by
  obtain ⟨hsort, hbound, hiff⟩ := keep_indices_spec t embs
  have hlen : embs.length = chunks.length := extract_embeddings_length _ _ he
  by_cases h1 : chunks.length ≤ 1
  · have hd : deduplicate_chunks t chunks = chunks := by
      unfold deduplicate_chunks
      rw [if_pos h1]
    rw [hd, hd]
  · push_neg at h1
    have heq : deduplicate_chunks t chunks =
        (keep_indices t embs).filterMap (fun i => chunks[i]?) := by
      unfold deduplicate_chunks
      rw [if_neg (not_le.mpr h1), he]
    have hboundc : ∀ i ∈ keep_indices t embs, i < chunks.length := by
      intro i hi
      rw [← hlen]
      exact hbound i hi
    have hF := extract_embeddings_forall₂ chunks embs he
    have hF' := filterMap_getElem_forall₂ hF (keep_indices t embs)
    have he' : extract_embeddings
        ((keep_indices t embs).filterMap (fun i => chunks[i]?)) =
        some ((keep_indices t embs).filterMap (fun i => embs[i]?)) :=
      forall₂_extract_embeddings _ _ hF'
    have houtlen : ((keep_indices t embs).filterMap (fun i => chunks[i]?)).length =
        (keep_indices t embs).length :=
      filterMap_getElem_length chunks _ hboundc
    have hembslen : ((keep_indices t embs).filterMap (fun i => embs[i]?)).length =
        (keep_indices t embs).length :=
      filterMap_getElem_length embs _ hbound
    have hval : ∀ (x : ℕ) (hx : x < (keep_indices t embs).length),
        ((keep_indices t embs).filterMap (fun i => embs[i]?)).getD x [] =
          embs.getD ((keep_indices t embs)[x]) [] := by
      intro x hx
      rw [list_getD_eq_getElem?, list_getD_eq_getElem?]
      rw [getElem?_filterMap_getElem embs _ hbound x]
      rw [List.getElem?_eq_getElem hx]
      rfl
    have Hpc : ∀ a b, b < a →
        a < ((keep_indices t embs).filterMap (fun i => embs[i]?)).length →
        ¬ cosine_similarity
            (((keep_indices t embs).filterMap (fun i => embs[i]?)).getD a [])
            (((keep_indices t embs).filterMap (fun i => embs[i]?)).getD b []) >
          t := by
      intro a b hba ha
      have ha' : a < (keep_indices t embs).length := by rw [← hembslen]; exact ha
      have hb' : b < (keep_indices t embs).length := lt_trans hba ha'
      rw [hval a ha', hval b hb']
      have hmema : (keep_indices t embs)[a] ∈ keep_indices t embs :=
        List.getElem_mem _
      have hmemb : (keep_indices t embs)[b] ∈ keep_indices t embs :=
        List.getElem_mem _
      have horder : (keep_indices t embs)[b] < (keep_indices t embs)[a] :=
        List.pairwise_iff_get.mp hsort ⟨b, hb'⟩ ⟨a, ha'⟩ hba
      obtain ⟨_, hP⟩ := (hiff _).mp hmema
      exact hP _ hmemb horder
    have hkeep := keep_indices_all t
      ((keep_indices t embs).filterMap (fun i => embs[i]?)) Hpc
    have hfin : deduplicate_chunks t
        ((keep_indices t embs).filterMap (fun i => chunks[i]?)) =
        (keep_indices t embs).filterMap (fun i => chunks[i]?) := by
      by_cases h2 : ((keep_indices t embs).filterMap (fun i => chunks[i]?)).length ≤ 1
      · unfold deduplicate_chunks
        rw [if_pos h2]
      · unfold deduplicate_chunks
        rw [if_neg h2, he']
        show (keep_indices t ((keep_indices t embs).filterMap (fun i => embs[i]?))).filterMap
            (fun i => ((keep_indices t embs).filterMap (fun j => chunks[j]?))[i]?) =
          (keep_indices t embs).filterMap (fun i => chunks[i]?)
        rw [hkeep]
        have hlen2 : ((keep_indices t embs).filterMap (fun i => embs[i]?)).length =
            ((keep_indices t embs).filterMap (fun i => chunks[i]?)).length := by
          rw [hembslen, houtlen]
        rw [hlen2]
        exact range_filterMap_getElem _
    rw [heq]
    exact hfin

/-- C9 witness: idempotence at a concrete two-chunk input. -/
theorem deduplicate_chunks_idempotent_witness :
    deduplicate_chunks 0.95 (deduplicate_chunks 0.95 c3chunks) =
      deduplicate_chunks 0.95 c3chunks :=
  deduplicate_chunks_idempotent 0.95 c3chunks c3embs 2 rfl (by decide)

/-! ## Chunker (backend/ingestion/chunking.py)

Python strings are modelled as lists of characters, the regex `\s` as
ASCII whitespace and `[A-Z]` as the ASCII uppercase range.  The two regex
operations of the source — the sentence-boundary split
`(?<=[.!?])\s+(?=[A-Z])` and the search for the last `[.!?]\s+` match in
the overlap window — are modelled as single-pass character scans with the
same semantics. -/

/-- `\s` (ASCII whitespace, as matched on the source's plain-text input). -/
def isSpace (c : Char) : Bool := c.isWhitespace

/-- The sentence-ending class `[.!?]`. -/
def isSentEnd (c : Char) : Bool := c = '.' || c = '!' || c = '?'

/-- The lookahead class `[A-Z]`. -/
def isUpperA (c : Char) : Bool := 'A' ≤ c && c ≤ 'Z'

/-- Python `str.strip()`: drop whitespace from both ends. -/
def stripL (l : List Char) : List Char :=
  ((l.dropWhile isSpace).reverse.dropWhile isSpace).reverse

/-- One-pass scan implementing `re.split(r'(?<=[.!?])\s+(?=[A-Z])', text)`:
a split happens at a whitespace run that follows a sentence-ending
character and is followed by an ASCII capital; the run is consumed.
`seg` is the segment built so far, `lastPunct` records whether its last
character ends a sentence, `wsbuf` buffers a candidate boundary run. -/
def splitSentencesAux : List Char → List Char → Bool → List Char → List (List Char)
  | [], seg, _, wsbuf => [seg ++ wsbuf]
  | c :: rest, seg, lastPunct, wsbuf =>
    if wsbuf.isEmpty then
      if lastPunct && isSpace c then splitSentencesAux rest seg lastPunct [c]
      else splitSentencesAux rest (seg ++ [c]) (isSentEnd c) []
    else
      if isSpace c then splitSentencesAux rest seg lastPunct (wsbuf ++ [c])
      else if isUpperA c then seg :: splitSentencesAux rest [c] false []
      else splitSentencesAux rest (seg ++ wsbuf ++ [c]) (isSentEnd c) []

/-- The sentence split of chunk_text. -/
def splitSentences (text : List Char) : List (List Char) :=
  splitSentencesAux text [] false []

/-- Python `text.split('\n\n')`. -/
def splitNl2 : List Char → List Char → List (List Char)
  | [], acc => [acc]
  | '\n' :: '\n' :: rest, acc => acc :: splitNl2 rest []
  | c :: rest, acc => splitNl2 rest (acc ++ [c])

/-- Python `text.split('\n')`. -/
def splitNl1 : List Char → List Char → List (List Char)
  | [], acc => [acc]
  | c :: rest, acc =>
    if c = '\n' then acc :: splitNl1 rest [] else splitNl1 rest (acc ++ [c])

/-- Python `str.split()` (used as `current_chunk.split()`): whitespace-
separated words, empties dropped. -/
def wordsOf : List Char → List Char → List (List Char)
  | [], acc => if acc.isEmpty then [] else [acc]
  | c :: rest, acc =>
    if isSpace c then
      if acc.isEmpty then wordsOf rest [] else acc :: wordsOf rest []
    else wordsOf rest (acc ++ [c])

/-- One-pass scan for the end position of the last `[.!?]\s+` match
(`re.finditer` keeps non-overlapping matches left to right; the loop in the
source keeps only the final match's `end()`). -/
def lastBoundaryEndAux : List Char → ℕ → Bool → Bool → Option ℕ → Option ℕ
  | [], _, _, _, last => last
  | c :: rest, i, prevPunct, inRun, last =>
    if inRun then
      if isSpace c then lastBoundaryEndAux rest (i + 1) prevPunct true (some (i + 1))
      else lastBoundaryEndAux rest (i + 1) (isSentEnd c) false last
    else
      if prevPunct && isSpace c then
        lastBoundaryEndAux rest (i + 1) prevPunct true (some (i + 1))
      else lastBoundaryEndAux rest (i + 1) (isSentEnd c) false last

/-- `re.finditer(r'[.!?]\s+', overlap_text)` — end of the last match. -/
def lastBoundaryEnd (l : List Char) : Option ℕ :=
  lastBoundaryEndAux l 0 false false none

/-- The `split_type` marker of the word-boundary fallback. -/
def word_boundary_tag : List Char := "word_boundary".toList

/-- A produced chunk: the Chunk class of the source, with its metadata dict
flattened into the `token_estimate`, `char_count` and optional `split_type`
fields. -/
structure Chunk where
  text : List Char
  chunk_index : ℕ
  file : List Char
  page : ℕ
  token_estimate : ℕ
  char_count : ℕ
  split_type : Option (List Char)
deriving DecidableEq

/-- `estimate_tokens`: 0 on empty text, else at least one token per four
characters (integer division). -/
def estimate_tokens (text : List Char) : ℕ :=
  if text.isEmpty then 0 else max 1 (text.length / 4)

/-- Decimal digits of `n`, most significant first (fuel-based so that it
reduces by evaluation; `natReprAux_eq_digits` ties it to `Nat.digits`). -/
def natReprAux : ℕ → ℕ → List Char
  | 0, _ => []
  | _, 0 => []
  | fuel + 1, n + 1 =>
    natReprAux fuel ((n + 1) / 10) ++ [Nat.digitChar ((n + 1) % 10)]

/-- Python `str(n)` for a natural number. -/
def natRepr (n : ℕ) : List Char :=
  if n = 0 then ['0'] else natReprAux n n

/-- `Chunk.get_id`: strip the last extension when a dot is present, replace
spaces and slashes by underscores, then append `_p{page}_c{chunk_index}`. -/
def Chunk.get_id (ck : Chunk) : List Char :=
  let file_base :=
    if ck.file.contains '.' then ((ck.file.reverse.dropWhile (· != '.')).drop 1).reverse
    else ck.file
  let file_base := file_base.map (fun c => if c = ' ' ∨ c = '/' then '_' else c)
  file_base ++ '_' :: 'p' :: natRepr ck.page ++ '_' :: 'c' :: natRepr ck.chunk_index

/-- Mutable state of the sentence loop in chunk_text. -/
structure ChunkState where
  chunks : List Chunk
  current : List Char
  idx : ℕ

/-- The word-level fallback loop of chunk_text (runaway-segment guard):
accumulate words while they fit, flush non-blank buffers as
`word_boundary` chunks.  Returns the chunk list, the next index and the
remaining buffer. -/
def wordLoop (sizeChars : ℕ) (file : List Char) (page : ℕ) :
    List (List Char) → List Chunk → ℕ → List Char → List Chunk × ℕ × List Char
  | [], chunks, idx, temp => (chunks, idx, temp)
  | w :: ws, chunks, idx, temp =>
    if temp.length + w.length + 1 ≤ sizeChars then
      wordLoop sizeChars file page ws chunks idx
        (if temp.isEmpty then w else temp ++ ' ' :: w)
    else
      if (stripL temp).isEmpty then wordLoop sizeChars file page ws chunks idx w
      else
        wordLoop sizeChars file page ws
          (chunks ++ [⟨stripL temp, idx, file, page, estimate_tokens temp,
            temp.length, some word_boundary_tag⟩])
          (idx + 1) w

/-- The accumulate-or-flush step of the sentence loop: flush the running
buffer as a Chunk when the candidate would exceed `sizeChars`, seeding the
new buffer from the overlap window, else extend the buffer. -/
def sentenceStep (sizeChars overlapChars : ℕ) (file : List Char) (page : ℕ)
    (st : ChunkState) (sentence : List Char) : ChunkState :=
  let potential := if st.current.isEmpty then sentence
    else st.current ++ ' ' :: sentence
  if 0 < st.current.length ∧ sizeChars < potential.length then
    if (stripL st.current).isEmpty then { st with current := sentence }
    else
      let ck : Chunk := ⟨stripL st.current, st.idx, file, page,
        estimate_tokens st.current, st.current.length, none⟩
      let newCur :=
        if 0 < overlapChars ∧ overlapChars < st.current.length then
          let overlapText := st.current.drop (st.current.length - overlapChars)
          match lastBoundaryEnd overlapText with
          | some e => overlapText.drop e ++ ' ' :: sentence
          | none => overlapText ++ ' ' :: sentence
        else sentence
      { chunks := st.chunks ++ [ck], current := newCur, idx := st.idx + 1 }
  else { st with current := potential }

/-- The runaway-segment guard: when the buffer exceeds `2 × sizeChars`,
force a word-level split of it. -/
def runawayGuard (sizeChars : ℕ) (file : List Char) (page : ℕ)
    (st1 : ChunkState) : ChunkState :=
  if sizeChars * 2 < st1.current.length then
    let res := wordLoop sizeChars file page (wordsOf st1.current []) st1.chunks st1.idx []
    { chunks := res.1, current := res.2.2, idx := res.2.1 }
  else st1

/-- The body of `for sentence in sentences` in chunk_text. -/
def processSentence (sizeChars overlapChars : ℕ) (file : List Char) (page : ℕ)
    (st : ChunkState) (sentRaw : List Char) : ChunkState :=
  let sentence := stripL sentRaw
  if sentence.isEmpty then st
  else runawayGuard sizeChars file page
    (sentenceStep sizeChars overlapChars file page st sentence)

/-- `settings.CHUNK_SIZE` default (target tokens). -/
def settings_CHUNK_SIZE : ℕ := 600

/-- `settings.CHUNK_OVERLAP` default (overlap tokens). -/
def settings_CHUNK_OVERLAP : ℕ := 90

/-- `chunk_size = chunk_size or settings.CHUNK_SIZE`. -/
def resolve_chunk_size : Option ℕ → ℕ
  | none => settings_CHUNK_SIZE
  | some n => if n = 0 then settings_CHUNK_SIZE else n

/-- `chunk_overlap = chunk_overlap or settings.CHUNK_OVERLAP`. -/
def resolve_chunk_overlap : Option ℕ → ℕ
  | none => settings_CHUNK_OVERLAP
  | some n => if n = 0 then settings_CHUNK_OVERLAP else n

/-- The segment selection of chunk_text: sentence split, falling back to
blank-line and then newline splitting when only one segment is found. -/
def sentencesOf (text : List Char) : List (List Char) :=
  let s0 := splitSentences text
  let s1 := if s0.length = 1 then splitNl2 text [] else s0
  if s1.length = 1 then splitNl1 text [] else s1

/-- `chunk_text(text, file_name, page_num, chunk_size, chunk_overlap)`. -/
def chunk_text (text file_name : List Char) (page_num : ℕ)
    (chunk_size chunk_overlap : Option ℕ) : List Chunk :=
  let size := resolve_chunk_size chunk_size
  let overlap := resolve_chunk_overlap chunk_overlap
  if (stripL text).isEmpty then []
  else
    let sizeChars := size * 4
    let overlapChars := overlap * 4
    let sentences := sentencesOf text
    let final := sentences.foldl
      (processSentence sizeChars overlapChars file_name page_num) ⟨[], [], 0⟩
    if (stripL final.current).isEmpty then final.chunks
    else final.chunks ++ [⟨stripL final.current, final.idx, file_name, page_num,
      estimate_tokens final.current, final.current.length, none⟩]

/-! ### Chunk identifiers (claim C5) -/

lemma natReprAux_eq_digits :
    ∀ (fuel n : ℕ), n ≤ fuel →
      natReprAux fuel n = (Nat.digits 10 n).reverse.map Nat.digitChar := by
  intro fuel
  induction fuel with
  | zero =>
    intro n hn
    interval_cases n
    simp [natReprAux]
  | succ fuel ih =>
    intro n hn
    cases n with
    | zero => simp [natReprAux]
    | succ n =>
      have hdiv : (n + 1) / 10 ≤ fuel := by
        have := Nat.div_lt_self (Nat.succ_pos n) (by norm_num : 1 < 10)
        omega
      have hdig : Nat.digits 10 (n + 1) =
          (n + 1) % 10 :: Nat.digits 10 ((n + 1) / 10) :=
        Nat.digits_def' (by norm_num) (Nat.succ_pos n)
      rw [show natReprAux (fuel + 1) (n + 1) =
        natReprAux fuel ((n + 1) / 10) ++ [Nat.digitChar ((n + 1) % 10)] from rfl]
      rw [ih _ hdiv, hdig]
      simp

lemma digitChar_inj_lt10 :
    ∀ d e : ℕ, d < 10 → e < 10 → Nat.digitChar d = Nat.digitChar e → d = e := by
  intro d e hd he
  interval_cases d <;> interval_cases e <;> decide

lemma map_digitChar_inj :
    ∀ (l₁ l₂ : List ℕ), (∀ d ∈ l₁, d < 10) → (∀ d ∈ l₂, d < 10) →
      l₁.map Nat.digitChar = l₂.map Nat.digitChar → l₁ = l₂ := by
  intro l₁
  induction l₁ with
  | nil =>
    intro l₂ _ _ h
    cases l₂ with
    | nil => rfl
    | cons d l₂ => simp at h
  | cons d l₁ ih =>
    intro l₂ h₁ h₂ h
    cases l₂ with
    | nil => simp at h
    | cons e l₂ =>
      simp only [List.map_cons, List.cons.injEq] at h
      have hde := digitChar_inj_lt10 d e (h₁ d (List.mem_cons_self d l₁))
        (h₂ e (List.mem_cons_self e l₂)) h.1
      rw [hde, ih l₂ (fun x hx => h₁ x (List.mem_cons_of_mem d hx))
        (fun x hx => h₂ x (List.mem_cons_of_mem e hx)) h.2]

lemma natRepr_eq_digits (n : ℕ) (hn : n ≠ 0) :
    natRepr n = (Nat.digits 10 n).reverse.map Nat.digitChar := by
  unfold natRepr
  rw [if_neg hn]
  exact natReprAux_eq_digits n n le_rfl

lemma natRepr_inj : ∀ m n : ℕ, natRepr m = natRepr n → m = n := by
  have hzero : ∀ n : ℕ, n ≠ 0 → natRepr n ≠ ['0'] := by
    intro n hn hcon
    rw [natRepr_eq_digits n hn] at hcon
    have hne : Nat.digits 10 n ≠ [] := Nat.digits_ne_nil_iff_ne_zero.mpr hn
    match hd : Nat.digits 10 n, hne with
    | [d], _ =>
      rw [hd] at hcon
      simp at hcon
      have hlt : d < 10 := Nat.digits_lt_base (by norm_num) (hd ▸ List.mem_singleton.mpr rfl)
      have hd0 : d = 0 := digitChar_inj_lt10 d 0 hlt (by norm_num) (by simpa using hcon)
      have h1 := Nat.ofDigits_digits 10 n
      rw [hd, hd0] at h1
      simp [Nat.ofDigits] at h1
      omega
    | d :: d' :: ds, _ =>
      rw [hd] at hcon
      have hlen := congrArg List.length hcon
      simp at hlen
  intro m n h
  by_cases hm : m = 0 <;> by_cases hn : n = 0
  · rw [hm, hn]
  · subst hm
    exact absurd h.symm (hzero n hn)
  · subst hn
    exact absurd h (hzero m hm)
  · rw [natRepr_eq_digits m hm, natRepr_eq_digits n hn] at h
    have hd : Nat.digits 10 m = Nat.digits 10 n := by
      have := map_digitChar_inj (Nat.digits 10 m).reverse (Nat.digits 10 n).reverse
        (fun d hd => Nat.digits_lt_base (by norm_num) (List.mem_reverse.mp hd))
        (fun d hd => Nat.digits_lt_base (by norm_num) (List.mem_reverse.mp hd)) h
      exact List.reverse_injective this
    calc m = Nat.ofDigits 10 (Nat.digits 10 m) := (Nat.ofDigits_digits 10 m).symm
      _ = Nat.ofDigits 10 (Nat.digits 10 n) := by rw [hd]
      _ = n := Nat.ofDigits_digits 10 n

lemma natRepr_no_underscore : ∀ (n : ℕ), ∀ c ∈ natRepr n, c ≠ '_' := by
  intro n c hc
  by_cases hn : n = 0
  · subst hn
    simp [natRepr] at hc
    subst hc
    decide
  · rw [natRepr_eq_digits n hn, List.mem_map] at hc
    obtain ⟨d, hd, hdc⟩ := hc
    have hlt : d < 10 := Nat.digits_lt_base (by norm_num) (List.mem_reverse.mp hd)
    subst hdc
    interval_cases d <;> decide

lemma sep_inj :
    ∀ (s₁ s₂ t₁ t₂ : List Char), (∀ c ∈ s₁, c ≠ '_') → (∀ c ∈ s₂, c ≠ '_') →
      s₁ ++ '_' :: t₁ = s₂ ++ '_' :: t₂ → s₁ = s₂ ∧ t₁ = t₂ := by
  intro s₁
  induction s₁ with
  | nil =>
    intro s₂ t₁ t₂ _ h₂ heq
    cases s₂ with
    | nil =>
      simp only [List.nil_append, List.cons.injEq] at heq
      exact ⟨rfl, heq.2⟩
    | cons c s₂ =>
      simp only [List.nil_append, List.cons_append, List.cons.injEq] at heq
      exact absurd heq.1.symm (h₂ c (List.mem_cons_self c s₂))
  | cons c s₁ ih =>
    intro s₂ t₁ t₂ h₁ h₂ heq
    cases s₂ with
    | nil =>
      simp only [List.cons_append, List.nil_append, List.cons.injEq] at heq
      exact absurd heq.1 (h₁ c (List.mem_cons_self c s₁))
    | cons d s₂ =>
      simp only [List.cons_append, List.cons.injEq] at heq
      obtain ⟨hcd, heq⟩ := heq
      obtain ⟨h, h'⟩ := ih s₂ t₁ t₂ (fun x hx => h₁ x (List.mem_cons_of_mem c hx))
        (fun x hx => h₂ x (List.mem_cons_of_mem d hx)) heq
      rw [hcd, h]
      exact ⟨rfl, h'⟩

/-- C5 counterexample input: two chunks from different files whose base
names coincide after extension stripping. -/
def c5chunkA : Chunk := ⟨"t1".toList, 0, "doc.txt".toList, 1, 1, 2, none⟩

/-- C5 counterexample input, second chunk. -/
def c5chunkB : Chunk := ⟨"t2".toList, 0, "doc.pdf".toList, 1, 1, 2, none⟩

/-- C5 counterexample: the claim fails as stated — these two chunks have
distinct (file, page, chunk_index) triples (the files differ) yet their
chunk ids are both "doc_p1_c0"-style equal, because extension stripping
collides. -/
theorem chunk_get_id_collision :
    (c5chunkA.file ≠ c5chunkB.file ∧ c5chunkA.page = c5chunkB.page ∧
      c5chunkA.chunk_index = c5chunkB.chunk_index) ∧
    c5chunkA.get_id = c5chunkB.get_id := by
  constructor
  · exact ⟨by decide, rfl, rfl⟩
  · decide

lemma get_id_eq (ck : Chunk) :
    ck.get_id =
      ((if ck.file.contains '.' then
          ((ck.file.reverse.dropWhile (· != '.')).drop 1).reverse
        else ck.file).map (fun c => if c = ' ' ∨ c = '/' then '_' else c)) ++
        '_' :: 'p' :: natRepr ck.page ++ '_' :: 'c' :: natRepr ck.chunk_index := rfl

/-- C5 (amended): chunk ids are injective for chunks of the same file —
for equal file names and distinct (page, chunk_index) pairs the ids
differ.  (Across different files, extension stripping and character
sanitization can collide, as the counterexample shows.) -/
theorem chunk_get_id_injective_same_file (ck₁ ck₂ : Chunk)
    (hfile : ck₁.file = ck₂.file)
    (hne : ck₁.page ≠ ck₂.page ∨ ck₁.chunk_index ≠ ck₂.chunk_index) :
    ck₁.get_id ≠ ck₂.get_id := by
  intro heq
  rw [get_id_eq, get_id_eq, hfile, List.append_assoc, List.append_assoc] at heq
  have heq2 := List.append_cancel_left heq
  simp only [List.cons_append, List.cons.injEq, true_and] at heq2
  obtain ⟨hp, hrest⟩ := sep_inj _ _ _ _ (natRepr_no_underscore ck₁.page)
    (natRepr_no_underscore ck₂.page) heq2
  simp only [List.cons.injEq, true_and] at hrest
  have hpage := natRepr_inj _ _ hp
  have hidx := natRepr_inj _ _ hrest
  rcases hne with h | h
  · exact h hpage
  · exact h hidx

/-- C5 amended-claim witness input: same file as c5chunkA, different page. -/
def c5chunkC : Chunk := ⟨"t3".toList, 0, "doc.txt".toList, 2, 1, 2, none⟩

/-- C5 witness: the amended claim applied at two concrete chunks of the
same file. -/
theorem chunk_get_id_injective_same_file_witness :
    c5chunkA.get_id ≠ c5chunkC.get_id :=
  chunk_get_id_injective_same_file c5chunkA c5chunkC rfl (Or.inl (by decide))

/-! ### Non-emptiness of produced chunks (claim C6) -/

lemma dropWhile_dropWhile (p : Char → Bool) :
    ∀ l : List Char, (l.dropWhile p).dropWhile p = l.dropWhile p := by
  intro l
  induction l with
  | nil => rfl
  | cons c cs ih =>
    by_cases h : p c = true
    · simp [List.dropWhile_cons, h, ih]
    · simp [List.dropWhile_cons, h]

lemma dropWhile_append_exists (p : Char → Bool) :
    ∀ l : List Char, ∃ t, t ++ l.dropWhile p = l := by
  intro l
  induction l with
  | nil => exact ⟨[], rfl⟩
  | cons c cs ih =>
    by_cases h : p c = true
    · obtain ⟨t, ht⟩ := ih
      exact ⟨c :: t, by simp [List.dropWhile_cons, h, ht]⟩
    · exact ⟨[], by simp [List.dropWhile_cons, h]⟩

lemma stripL_stripL (l : List Char) : stripL (stripL l) = stripL l := by
  unfold stripL
  set u := l.dropWhile isSpace with hu
  set w := u.reverse.dropWhile isSpace with hw
  have hv : w.reverse.dropWhile isSpace = w.reverse := by
    cases hwr : w.reverse with
    | nil => rfl
    | cons c cs =>
      obtain ⟨t, ht⟩ := dropWhile_append_exists isSpace u.reverse
      rw [← hw] at ht
      have hu2 : u = w.reverse ++ t.reverse := by
        have h := congrArg List.reverse ht
        rw [List.reverse_append, List.reverse_reverse] at h
        exact h.symm
      rw [hwr] at hu2
      have hid : u.dropWhile isSpace = u := by
        rw [hu]
        exact dropWhile_dropWhile isSpace l
      rw [hu2, List.cons_append] at hid
      have hc : ¬ isSpace c = true := by
        intro hcon
        rw [List.dropWhile_cons, if_pos hcon] at hid
        have hlen := congrArg List.length hid
        have hle := (List.dropWhile_sublist (l := cs ++ t.reverse)
          (p := isSpace)).length_le
        simp at hlen hle
        omega
      rw [List.dropWhile_cons, if_neg hc]
  rw [hv, List.reverse_reverse]
  have hwid : w.dropWhile isSpace = w := by
    rw [hw]
    exact dropWhile_dropWhile isSpace u.reverse
  rw [hwid]

lemma wordLoop_nonempty (size : ℕ) (file : List Char) (page : ℕ) :
    ∀ (ws : List (List Char)) (chunks : List Chunk) (idx : ℕ) (temp : List Char),
      (∀ ck ∈ chunks, stripL ck.text ≠ []) →
      ∀ ck ∈ (wordLoop size file page ws chunks idx temp).1,
        stripL ck.text ≠ [] := by
  intro ws
  induction ws with
  | nil => intro chunks idx temp h; exact h
  | cons w ws ih =>
    intro chunks idx temp h
    unfold wordLoop
    split
    · exact ih _ _ _ h
    · split
      · exact ih _ _ _ h
      · rename_i hne
        apply ih
        intro ck hck
        rcases List.mem_append.mp hck with hck | hck
        · exact h ck hck
        · rw [List.mem_singleton] at hck
          subst hck
          show stripL (stripL temp) ≠ []
          rw [stripL_stripL]
          intro hcon
          apply hne
          rw [hcon]
          rfl

lemma sentenceStep_nonempty (sizeChars overlapChars : ℕ) (file : List Char)
    (page : ℕ) (st : ChunkState) (sentence : List Char)
    (h : ∀ ck ∈ st.chunks, stripL ck.text ≠ []) :
    ∀ ck ∈ (sentenceStep sizeChars overlapChars file page st sentence).chunks,
      stripL ck.text ≠ [] := by
  have happ : ¬ (stripL st.current).isEmpty = true →
      ∀ ck ∈ st.chunks ++ [(⟨stripL st.current, st.idx, file, page,
        estimate_tokens st.current, st.current.length, none⟩ : Chunk)],
        stripL ck.text ≠ [] := by
    intro hne ck hck
    rcases List.mem_append.mp hck with hck | hck
    · exact h ck hck
    · rw [List.mem_singleton] at hck
      subst hck
      show stripL (stripL st.current) ≠ []
      rw [stripL_stripL]
      intro hcon
      apply hne
      rw [hcon]
      rfl
  simp only [sentenceStep]
  split
  · split
    · split
      · exact h
      · rename_i hne
        exact happ hne
    · exact h
  · split
    · split
      · exact h
      · rename_i hne
        exact happ hne
    · exact h

lemma runawayGuard_nonempty (sizeChars : ℕ) (file : List Char) (page : ℕ)
    (st1 : ChunkState) (h : ∀ ck ∈ st1.chunks, stripL ck.text ≠ []) :
    ∀ ck ∈ (runawayGuard sizeChars file page st1).chunks, stripL ck.text ≠ [] := by
  simp only [runawayGuard]
  split
  · exact wordLoop_nonempty _ _ _ _ _ _ _ h
  · exact h

lemma processSentence_nonempty (sizeChars overlapChars : ℕ) (file : List Char)
    (page : ℕ) (st : ChunkState) (sent : List Char)
    (h : ∀ ck ∈ st.chunks, stripL ck.text ≠ []) :
    ∀ ck ∈ (processSentence sizeChars overlapChars file page st sent).chunks,
      stripL ck.text ≠ [] := by
  simp only [processSentence]
  split
  · exact h
  · exact runawayGuard_nonempty _ _ _ _
      (sentenceStep_nonempty _ _ _ _ _ _ h)

lemma foldl_processSentence_nonempty (sizeChars overlapChars : ℕ)
    (file : List Char) (page : ℕ) :
    ∀ (sents : List (List Char)) (st : ChunkState),
      (∀ ck ∈ st.chunks, stripL ck.text ≠ []) →
      ∀ ck ∈ (sents.foldl (processSentence sizeChars overlapChars file page)
          st).chunks, stripL ck.text ≠ [] := by
  intro sents
  induction sents with
  | nil => intro st h; exact h
  | cons s sents ih =>
    intro st h
    simp only [List.foldl_cons]
    exact ih _ (processSentence_nonempty _ _ _ _ _ _ h)

/-- C6: chunk_text is a total function (it never raises); empty or
whitespace-only text yields the empty list, and no returned chunk has text
that is empty after trimming. -/
theorem chunk_text_never_fails (text file_name : List Char) (page : ℕ)
    (chunk_size chunk_overlap : Option ℕ) :
    (stripL text = [] →
      chunk_text text file_name page chunk_size chunk_overlap = []) ∧
    ∀ ck ∈ chunk_text text file_name page chunk_size chunk_overlap,
      stripL ck.text ≠ [] := by
  constructor
  · intro h
    unfold chunk_text
    rw [if_pos (by simp [h])]
  · intro ck hck
    simp only [chunk_text] at hck
    by_cases h : (stripL text).isEmpty
    · rw [if_pos h] at hck
      simp at hck
    · rw [if_neg h] at hck
      have hfold := foldl_processSentence_nonempty
        (resolve_chunk_size chunk_size * 4) (resolve_chunk_overlap chunk_overlap * 4)
        file_name page (sentencesOf text) ⟨[], [], 0⟩
        (by intro ck' hck'; simp at hck')
      by_cases h2 : (stripL ((sentencesOf text).foldl
          (processSentence (resolve_chunk_size chunk_size * 4)
            (resolve_chunk_overlap chunk_overlap * 4) file_name page)
          ⟨[], [], 0⟩).current).isEmpty
      · rw [if_pos h2] at hck
        exact hfold ck hck
      · rw [if_neg h2] at hck
        rcases List.mem_append.mp hck with hck | hck
        · exact hfold ck hck
        · rw [List.mem_singleton] at hck
          subst hck
          show stripL (stripL _) ≠ []
          rw [stripL_stripL]
          intro hcon
          apply h2
          rw [hcon]
          rfl

/-- C6 witness: whitespace-only input produces no chunks, via the theorem. -/
theorem chunk_text_never_fails_witness :
    chunk_text "   ".toList "f".toList 1 (some 10) (some 5) = [] :=
  (chunk_text_never_fails "   ".toList "f".toList 1 (some 10) (some 5)).1
    (by decide)

/-! ### Size bounds of produced chunks (claim C4) -/

lemma stripL_length_le (l : List Char) : (stripL l).length ≤ l.length := by
  unfold stripL
  have h1 := (List.dropWhile_sublist (l := l) (p := isSpace)).length_le
  have h2 := (List.dropWhile_sublist (l := (l.dropWhile isSpace).reverse)
    (p := isSpace)).length_le
  simp only [List.length_reverse] at h2 ⊢
  omega

lemma wordsOf_nil (acc : List Char) :
    wordsOf [] acc = if acc.isEmpty then [] else [acc] := rfl

lemma wordsOf_cons (c : Char) (rest acc : List Char) :
    wordsOf (c :: rest) acc =
      if isSpace c = true then
        (if acc.isEmpty = true then wordsOf rest [] else acc :: wordsOf rest [])
      else wordsOf rest (acc ++ [c]) := rfl

lemma wordsOf_length_le :
    ∀ (l acc : List Char) (w : List Char), w ∈ wordsOf l acc →
      w.length ≤ acc.length + l.length := by
  intro l
  induction l with
  | nil =>
    intro acc w hw
    unfold wordsOf at hw
    split at hw
    · simp at hw
    · rw [List.mem_singleton] at hw
      subst hw
      simp
  | cons c rest ih =>
    intro acc w hw
    unfold wordsOf at hw
    split at hw
    · split at hw
      · have := ih [] w hw
        simp only [List.length_nil, Nat.zero_add] at this
        simp only [List.length_cons]
        omega
      · rcases List.mem_cons.mp hw with hw | hw
        · subst hw
          simp only [List.length_cons]
          omega
        · have := ih [] w hw
          simp only [List.length_nil, Nat.zero_add] at this
          simp only [List.length_cons]
          omega
    · have := ih (acc ++ [c]) w hw
      simp only [List.length_append, List.length_cons, List.length_nil] at this
      simp only [List.length_cons]
      omega

lemma wordsOf_append_space :
    ∀ (x : List Char) (acc y : List Char),
      wordsOf (x ++ ' ' :: y) acc = wordsOf x acc ++ wordsOf y [] := by
  intro x
  induction x with
  | nil =>
    intro acc y
    simp only [List.nil_append]
    rw [wordsOf_cons, wordsOf_nil, if_pos (by decide : isSpace ' ' = true)]
    by_cases hacc : acc.isEmpty = true
    · rw [if_pos hacc, if_pos hacc, List.nil_append]
    · rw [if_neg hacc, if_neg hacc, List.singleton_append]
  | cons c x ih =>
    intro acc y
    simp only [List.cons_append]
    rw [wordsOf_cons, wordsOf_cons]
    by_cases hc : isSpace c = true
    · rw [if_pos hc, if_pos hc]
      by_cases hacc : acc.isEmpty = true
      · rw [if_pos hacc, if_pos hacc, ih]
      · rw [if_neg hacc, if_neg hacc, ih, List.cons_append]
    · rw [if_neg hc, if_neg hc, ih]

lemma wordsOf_acc_mono :
    ∀ (l : List Char) (m : ℕ) (acc₁ acc₂ : List Char),
      acc₁.length ≤ acc₂.length →
      (∀ w ∈ wordsOf l acc₂, w.length ≤ m) →
      ∀ w ∈ wordsOf l acc₁, w.length ≤ m := by
  intro l
  induction l with
  | nil =>
    intro m acc₁ acc₂ hle h w hw
    unfold wordsOf at hw
    split at hw
    · simp at hw
    · rename_i hne
      rw [List.mem_singleton] at hw
      subst hw
      have hacc2 : ¬ acc₂.isEmpty = true := by
        intro hcon
        rw [List.isEmpty_iff] at hcon
        subst hcon
        simp only [List.length_nil, Nat.le_zero, List.length_eq_zero] at hle
        exact hne (by rw [hle]; rfl)
      have h2 : acc₂.length ≤ m := by
        apply h
        unfold wordsOf
        rw [if_neg hacc2]
        exact List.mem_singleton.mpr rfl
      omega
  | cons c rest ih =>
    intro m acc₁ acc₂ hle h w hw
    unfold wordsOf at hw
    by_cases hc : isSpace c = true
    · rw [if_pos hc] at hw
      have hrest : ∀ w ∈ wordsOf rest [], w.length ≤ m := by
        intro w' hw'
        apply h
        unfold wordsOf
        rw [if_pos hc]
        split
        · exact hw'
        · exact List.mem_cons_of_mem _ hw'
      split at hw
      · exact hrest w hw
      · rcases List.mem_cons.mp hw with hw | hw
        · subst hw
          have hacc2 : ¬ acc₂.isEmpty = true := by
            rename_i hne
            intro hcon
            rw [List.isEmpty_iff] at hcon
            subst hcon
            simp only [List.length_nil, Nat.le_zero, List.length_eq_zero] at hle
            exact hne (by rw [hle]; rfl)
          have h2 : acc₂.length ≤ m := by
            apply h
            unfold wordsOf
            rw [if_pos hc, if_neg hacc2]
            exact List.mem_cons_self _ _
          omega
        · exact hrest w hw
    · rw [if_neg hc] at hw
      refine ih m (acc₁ ++ [c]) (acc₂ ++ [c]) (by simp; omega) ?_ w hw
      intro w' hw'
      apply h
      unfold wordsOf
      rw [if_neg hc]
      exact hw'

lemma wordsOf_tail_le (m : ℕ) (c : Char) (l : List Char)
    (h : ∀ w ∈ wordsOf (c :: l) [], w.length ≤ m) :
    ∀ w ∈ wordsOf l [], w.length ≤ m := by
  by_cases hc : isSpace c = true
  · intro w hw
    apply h
    unfold wordsOf
    rw [if_pos hc]
    split
    · exact hw
    · rename_i hne
      exact absurd rfl hne
  · refine wordsOf_acc_mono l m [] [c] (by simp) ?_
    intro w hw
    apply h
    unfold wordsOf
    rw [if_neg hc]
    simpa using hw

lemma wordsOf_drop_le (m : ℕ) :
    ∀ (k : ℕ) (l : List Char),
      (∀ w ∈ wordsOf l [], w.length ≤ m) →
      ∀ w ∈ wordsOf (l.drop k) [], w.length ≤ m := by
  intro k
  induction k with
  | zero => intro l h; simpa using h
  | succ k ih =>
    intro l h
    cases l with
    | nil => simpa using h
    | cons c rest =>
      rw [List.drop_succ_cons]
      exact ih rest (wordsOf_tail_le m c rest h)

/-- Size discipline of a produced chunk: within the overlap-extended bound,
and within `sizeChars` when produced by the word-boundary fallback. -/
def chunkSizeOK (sizeChars B : ℕ) (ck : Chunk) : Prop :=
  ck.text.length ≤ B ∧
  (ck.split_type = some word_boundary_tag → ck.text.length ≤ sizeChars)

/-- Size discipline of the loop state: produced chunks in bound, the
running buffer within `B`, every whitespace-free run of the buffer within
`sizeChars`. -/
def stateSizeOK (sizeChars B : ℕ) (st : ChunkState) : Prop :=
  (∀ ck ∈ st.chunks, chunkSizeOK sizeChars B ck) ∧
  st.current.length ≤ B ∧
  (∀ w ∈ wordsOf st.current [], w.length ≤ sizeChars)

lemma wordLoop_size_bound (sizeChars B : ℕ) (hB : sizeChars ≤ B)
    (file : List Char) (page : ℕ) :
    ∀ (ws : List (List Char)) (chunks : List Chunk) (idx : ℕ) (temp : List Char),
      (∀ w ∈ ws, w.length ≤ sizeChars) →
      temp.length ≤ sizeChars →
      (∀ w ∈ wordsOf temp [], w.length ≤ sizeChars) →
      (∀ ck ∈ chunks, chunkSizeOK sizeChars B ck) →
      (∀ ck ∈ (wordLoop sizeChars file page ws chunks idx temp).1,
        chunkSizeOK sizeChars B ck) ∧
      (wordLoop sizeChars file page ws chunks idx temp).2.2.length ≤ sizeChars ∧
      (∀ w ∈ wordsOf (wordLoop sizeChars file page ws chunks idx temp).2.2 [],
        w.length ≤ sizeChars) := by
  intro ws
  induction ws with
  | nil =>
    intro chunks idx temp _ h2 h3 h4
    exact ⟨h4, h2, h3⟩
  | cons w ws ih =>
    intro chunks idx temp h1 h2 h3 h4
    have hw : w.length ≤ sizeChars := h1 w (List.mem_cons_self w ws)
    have h1' : ∀ w' ∈ ws, w'.length ≤ sizeChars :=
      fun w' hw' => h1 w' (List.mem_cons_of_mem w hw')
    have hwordsw : ∀ w' ∈ wordsOf w [], w'.length ≤ sizeChars := by
      intro w' hw'
      have := wordsOf_length_le w [] w' hw'
      simp only [List.length_nil, Nat.zero_add] at this
      omega
    unfold wordLoop
    split
    · rename_i hfits
      by_cases htemp : temp.isEmpty = true
      · rw [if_pos htemp]
        exact ih _ _ _ h1' hw hwordsw h4
      · rw [if_neg htemp]
        refine ih _ _ _ h1' ?_ ?_ h4
        · simp only [List.length_append, List.length_cons]
          omega
        · intro w' hw'
          rw [wordsOf_append_space] at hw'
          rcases List.mem_append.mp hw' with hw' | hw'
          · exact h3 w' hw'
          · exact hwordsw w' hw'
    · split
      · exact ih _ _ _ h1' hw hwordsw h4
      · refine ih _ _ _ h1' hw hwordsw ?_
        intro ck hck
        rcases List.mem_append.mp hck with hck | hck
        · exact h4 ck hck
        · rw [List.mem_singleton] at hck
          subst hck
          constructor
          · show (stripL temp).length ≤ B
            have := stripL_length_le temp
            omega
          · intro _
            show (stripL temp).length ≤ sizeChars
            have := stripL_length_le temp
            omega

lemma sentenceStep_size_bound (sizeChars overlapChars : ℕ) (file : List Char)
    (page : ℕ) (st : ChunkState) (sentence : List Char)
    (hsent : sentence.length ≤ sizeChars)
    (hst : stateSizeOK sizeChars (sizeChars + overlapChars + 1) st) :
    stateSizeOK sizeChars (sizeChars + overlapChars + 1)
      (sentenceStep sizeChars overlapChars file page st sentence) := by
  obtain ⟨hchunks, hcur, hwords⟩ := hst
  have hsentwords : ∀ w ∈ wordsOf sentence [], w.length ≤ sizeChars := by
    intro w hw
    have := wordsOf_length_le sentence [] w hw
    simp only [List.length_nil, Nat.zero_add] at this
    omega
  have hflushchunks : ∀ ck ∈ st.chunks ++ [(⟨stripL st.current, st.idx, file,
      page, estimate_tokens st.current, st.current.length, none⟩ : Chunk)],
      chunkSizeOK sizeChars (sizeChars + overlapChars + 1) ck := by
    intro ck hck
    rcases List.mem_append.mp hck with hck | hck
    · exact hchunks ck hck
    · rw [List.mem_singleton] at hck
      subst hck
      constructor
      · show (stripL st.current).length ≤ sizeChars + overlapChars + 1
        have := stripL_length_le st.current
        omega
      · intro hcon
        exact absurd hcon (by simp)
  have hnewcur : ∀ (nc : List Char),
      nc = (if 0 < overlapChars ∧ overlapChars < st.current.length then
        match lastBoundaryEnd (st.current.drop (st.current.length - overlapChars)) with
        | some e => (st.current.drop (st.current.length - overlapChars)).drop e ++
            ' ' :: sentence
        | none => st.current.drop (st.current.length - overlapChars) ++
            ' ' :: sentence
      else sentence) →
      nc.length ≤ sizeChars + overlapChars + 1 ∧
      (∀ w ∈ wordsOf nc [], w.length ≤ sizeChars) := by
    intro nc hnc
    have hdropwords : ∀ (k : ℕ), ∀ w ∈ wordsOf (st.current.drop k) [],
        w.length ≤ sizeChars := fun k => wordsOf_drop_le sizeChars k st.current hwords
    have hdropwords2 : ∀ (k e : ℕ),
        ∀ w ∈ wordsOf ((st.current.drop k).drop e) [], w.length ≤ sizeChars :=
      fun k e => wordsOf_drop_le sizeChars e (st.current.drop k) (hdropwords k)
    rw [hnc]
    split
    · rename_i hov
      split
      · rename_i e heq
        constructor
        · simp only [List.length_append, List.length_cons, List.length_drop]
          omega
        · intro w hw
          rw [wordsOf_append_space] at hw
          rcases List.mem_append.mp hw with hw | hw
          · exact hdropwords2 _ _ w hw
          · exact hsentwords w hw
      · constructor
        · simp only [List.length_append, List.length_cons, List.length_drop]
          omega
        · intro w hw
          rw [wordsOf_append_space] at hw
          rcases List.mem_append.mp hw with hw | hw
          · exact hdropwords _ w hw
          · exact hsentwords w hw
    · exact ⟨by omega, hsentwords⟩
  simp only [sentenceStep]
  split
  · split
    · split
      · exact ⟨hchunks,
          by show sentence.length ≤ sizeChars + overlapChars + 1; omega, hsentwords⟩
      · refine ⟨hflushchunks, ?_⟩
        exact And.imp_left id (And.intro (hnewcur _ rfl).1 (hnewcur _ rfl).2)
    · exact ⟨hchunks,
        by show sentence.length ≤ sizeChars + overlapChars + 1; omega, hsentwords⟩
  · split
    · split
      · exact ⟨hchunks,
          by show sentence.length ≤ sizeChars + overlapChars + 1; omega, hsentwords⟩
      · refine ⟨hflushchunks, ?_⟩
        exact And.imp_left id (And.intro (hnewcur _ rfl).1 (hnewcur _ rfl).2)
    · rename_i hne hcond
      push_neg at hcond
      have hpos : 0 < st.current.length := by
        cases hc : st.current with
        | nil => rw [hc] at hne; simp at hne
        | cons a l => simp
      have hle := hcond hpos
      refine ⟨hchunks, ?_, ?_⟩
      · show (st.current ++ ' ' :: sentence).length ≤ sizeChars + overlapChars + 1
        simp only [List.length_append, List.length_cons] at hle ⊢
        omega
      intro w hw
      rw [wordsOf_append_space] at hw
      rcases List.mem_append.mp hw with hw | hw
      · exact hwords w hw
      · exact hsentwords w hw

lemma runawayGuard_size_bound (sizeChars overlapChars : ℕ) (file : List Char)
    (page : ℕ) (st1 : ChunkState)
    (hst : stateSizeOK sizeChars (sizeChars + overlapChars + 1) st1) :
    stateSizeOK sizeChars (sizeChars + overlapChars + 1)
      (runawayGuard sizeChars file page st1) := by
  obtain ⟨hchunks, hcur, hwords⟩ := hst
  simp only [runawayGuard]
  split
  · have := wordLoop_size_bound sizeChars (sizeChars + overlapChars + 1)
      (by omega) file page (wordsOf st1.current []) st1.chunks st1.idx []
      hwords (by simp) (by intro w hw; simp [wordsOf_nil] at hw) hchunks
    exact ⟨this.1, this.2.1.trans (by omega), this.2.2⟩
  · exact ⟨hchunks, hcur, hwords⟩

lemma processSentence_size_bound (sizeChars overlapChars : ℕ) (file : List Char)
    (page : ℕ) (st : ChunkState) (sentRaw : List Char)
    (hsent : sentRaw.length ≤ sizeChars)
    (hst : stateSizeOK sizeChars (sizeChars + overlapChars + 1) st) :
    stateSizeOK sizeChars (sizeChars + overlapChars + 1)
      (processSentence sizeChars overlapChars file page st sentRaw) := by
  simp only [processSentence]
  split
  · exact hst
  · exact runawayGuard_size_bound _ _ _ _ _
      (sentenceStep_size_bound _ _ _ _ _ _
        ((stripL_length_le sentRaw).trans hsent) hst)

lemma foldl_processSentence_size_bound (sizeChars overlapChars : ℕ)
    (file : List Char) (page : ℕ) :
    ∀ (sents : List (List Char)) (st : ChunkState),
      (∀ s ∈ sents, s.length ≤ sizeChars) →
      stateSizeOK sizeChars (sizeChars + overlapChars + 1) st →
      stateSizeOK sizeChars (sizeChars + overlapChars + 1)
        (sents.foldl (processSentence sizeChars overlapChars file page) st) := by
  intro sents
  induction sents with
  | nil => intro st _ hst; exact hst
  | cons s sents ih =>
    intro st hs hst
    simp only [List.foldl_cons]
    exact ih _ (fun s' hs' => hs s' (List.mem_cons_of_mem s hs'))
      (processSentence_size_bound _ _ _ _ _ _ (hs s (List.mem_cons_self s sents)) hst)

/-- C4 counterexample input: three 39-character sentences (all within the
40-character budget of chunk_size = 10 tokens). -/
def c4text : List Char :=
  ("Aaaaaaaaaaaaaaaaaaaaaaaaaaaaaaaaaaaaaa. Bbbbbbbbbbbbbbbbbbbbbbbbbbbbbbbbbbbbbb. Cccccccccccccccccccccccccccccccccccccc.").toList

/-- C4 counterexample input for the word-boundary part: a single
98-character word. -/
def c4btext : List Char :=
  ("wwwwwwwwwwwwwwwwwwwwwwwwwwwwwwwwwwwwwwwwwwwwwwwwwwwwwwwwwwwwwwwwwwwwwwwwwwwwwwwwwwwwwwwwwwwwwwww x").toList

set_option maxRecDepth 4000 in
/-- C4 counterexample: with chunk_size 10 tokens (40 characters) and
chunk_overlap 5 tokens, every sentence of c4text fits in 40 characters yet
chunk_text produces a regular chunk of 60 characters (overlap seeding
prepends the 20-character overlap window to the next sentence); and on
c4btext the word-boundary fallback emits a 98-character chunk, refuting the
unconditional word-boundary bound. -/
theorem chunk_text_size_bound_counterexample :
    (∀ s ∈ sentencesOf c4text, s.length ≤ resolve_chunk_size (some 10) * 4) ∧
    (∃ ck ∈ chunk_text c4text ("f".toList) 1 (some 10) (some 5),
      ck.split_type = none ∧ resolve_chunk_size (some 10) * 4 < ck.text.length) ∧
    (∃ ck ∈ chunk_text c4btext ("f".toList) 1 (some 10) (some 5),
      ck.split_type = some word_boundary_tag ∧
        resolve_chunk_size (some 10) * 4 < ck.text.length) := by
  decide

/-- C4 (amended): when every sentence segment fits in `chunk_size_chars`,
every chunk produced by chunk_text has length at most
`chunk_size_chars + chunk_overlap_chars + 1` (overlap seeding can prepend
up to an overlap window plus a joining space), and under the same
hypothesis every word-boundary chunk fits in `chunk_size_chars`. -/
theorem chunk_text_size_bound (text file_name : List Char) (page : ℕ)
    (chunk_size chunk_overlap : Option ℕ)
    (hsent : ∀ s ∈ sentencesOf text, s.length ≤ resolve_chunk_size chunk_size * 4) :
    ∀ ck ∈ chunk_text text file_name page chunk_size chunk_overlap,
      ck.text.length ≤ resolve_chunk_size chunk_size * 4 +
        resolve_chunk_overlap chunk_overlap * 4 + 1 ∧
      (ck.split_type = some word_boundary_tag →
        ck.text.length ≤ resolve_chunk_size chunk_size * 4) := by
  intro ck hck
  simp only [chunk_text] at hck
  by_cases h : (stripL text).isEmpty
  · rw [if_pos h] at hck
    simp at hck
  · rw [if_neg h] at hck
    have hfold := foldl_processSentence_size_bound
      (resolve_chunk_size chunk_size * 4) (resolve_chunk_overlap chunk_overlap * 4)
      file_name page (sentencesOf text) ⟨[], [], 0⟩ hsent
      ⟨by intro ck' hck'; simp at hck', by simp,
        by intro w hw; simp [wordsOf_nil] at hw⟩
    obtain ⟨hchunks, hcur, _⟩ := hfold
    by_cases h2 : (stripL ((sentencesOf text).foldl
        (processSentence (resolve_chunk_size chunk_size * 4)
          (resolve_chunk_overlap chunk_overlap * 4) file_name page)
        ⟨[], [], 0⟩).current).isEmpty
    · rw [if_pos h2] at hck
      exact hchunks ck hck
    · rw [if_neg h2] at hck
      rcases List.mem_append.mp hck with hck | hck
      · exact hchunks ck hck
      · rw [List.mem_singleton] at hck
        subst hck
        constructor
        · have := stripL_length_le ((sentencesOf text).foldl
            (processSentence (resolve_chunk_size chunk_size * 4)
              (resolve_chunk_overlap chunk_overlap * 4) file_name page)
            ⟨[], [], 0⟩).current
          show (stripL _).length ≤ _
          omega
        · intro hcon
          exact absurd hcon (by simp)

/-- C4 amended-claim witness: the bound applied to the overlap-seeded
second chunk of a concrete two-sentence text with chunk_size 3 tokens and
chunk_overlap 1 token. -/
theorem chunk_text_size_bound_witness :
    (⟨"rld. Nice day.".toList, 1, "f".toList, 1, 3, 14, none⟩ : Chunk).text.length ≤
      resolve_chunk_size (some 3) * 4 + resolve_chunk_overlap (some 1) * 4 + 1 :=
  (chunk_text_size_bound ("Hello world. Nice day.".toList) ("f".toList) 1
    (some 3) (some 1) (by decide)
    (⟨"rld. Nice day.".toList, 1, "f".toList, 1, 3, 14, none⟩ : Chunk)
    (by decide)).1

end DataSplice
